import Mathlib

/-!
Verification of the tmppy IR0 unification engine, specialization ranking,
optimization driver, and the test-harness bisection helper.

The unification engine, specialization ranker and optimization driver are
modelled from the specification (their implementation modules are not part of
the source tree that accompanies the tests); `bisect_with_predicate` is
translated directly from `_py2tmp/compiler/testing/_utils.py`.
-/

namespace Tmppy

/-- Literal values carried by IR0 `Literal` nodes: booleans or 64-bit integers
(modelled as unbounded integers, since the term model only compares them). -/
inductive LitValue
| boolV (b : Bool)
| intV (n : Int)
deriving DecidableEq

/-- The type tag carried by an atomic identifier: a plain type, a variadic
pack, or a template signature (argument types plus the
`is_metafunction_that_may_return_error` flag). -/
inductive ExprType
| typeType
| variadicType
| templateType (argTypes : List ExprType) (isMetafunctionThatMayReturnError : Bool)

mutual

def ExprType.beq : ExprType → ExprType → Bool
| .typeType, .typeType => true
| .variadicType, .variadicType => true
| .templateType l1 f1, .templateType l2 f2 => ExprType.beqL l1 l2 && (f1 == f2)
| _, _ => false

def ExprType.beqL : List ExprType → List ExprType → Bool
| [], [] => true
| x :: xs, y :: ys => ExprType.beq x y && ExprType.beqL xs ys
| _, _ => false

end

mutual

theorem ExprType.beq_iff : ∀ a b : ExprType, ExprType.beq a b = true ↔ a = b
| .typeType, b => by cases b <;> simp [ExprType.beq]
| .variadicType, b => by cases b <;> simp [ExprType.beq]
| .templateType l1 f1, .typeType => by simp [ExprType.beq]
| .templateType l1 f1, .variadicType => by simp [ExprType.beq]
| .templateType l1 f1, .templateType l2 f2 => by
  simp only [ExprType.beq, Bool.and_eq_true, beq_iff_eq, ExprType.beqL_iff l1 l2,
    ExprType.templateType.injEq]

theorem ExprType.beqL_iff : ∀ xs ys : List ExprType, ExprType.beqL xs ys = true ↔ xs = ys
| [], [] => by simp [ExprType.beqL]
| [], _ :: _ => by simp [ExprType.beqL]
| _ :: _, [] => by simp [ExprType.beqL]
| x :: xs, y :: ys => by
  simp only [ExprType.beqL, Bool.and_eq_true, ExprType.beq_iff x y, ExprType.beqL_iff xs ys,
    List.cons.injEq]

end

instance : DecidableEq ExprType := fun a b => decidable_of_iff _ (ExprType.beq_iff a b)

/-- Modelled from the spec: the static (non-recursive) comparison fields of
every IR0 `Expr` node kind.  Two nodes are comparison-compatible only if they
have the same head; the recursive parts are the children list. -/
inductive Head
| lit (v : LitValue)
| atomic (name : String) (isLocal : Bool) (type : ExprType)
| pointerType
| referenceType
| rvalueReferenceType
| constType
| arrayType
| functionType
| comparison (op : String)
| int64BinaryOp (op : String)
| notOp
| unaryMinus
| templateInstantiation (mightTriggerStaticAsserts : Bool)
| classMemberAccess (memberName : String) (memberType : ExprType)
| variadicExpansion
deriving DecidableEq

/-- Modelled from the spec: the immutable tagged expression tree (IR0 `Expr`).
Every variant is a head holding the static fields plus an ordered children
list; the constructor helpers below fix each variant's children convention. -/
inductive Expr
| node (head : Head) (children : List Expr)

mutual

def Expr.beq : Expr → Expr → Bool
| .node h1 cs1, .node h2 cs2 => (h1 == h2) && Expr.beqL cs1 cs2

def Expr.beqL : List Expr → List Expr → Bool
| [], [] => true
| x :: xs, y :: ys => Expr.beq x y && Expr.beqL xs ys
| _, _ => false

end

mutual

theorem Expr.beq_eq_true_iff : ∀ a b : Expr, Expr.beq a b = true ↔ a = b
| .node h1 cs1, .node h2 cs2 => by
  simp only [Expr.beq, Bool.and_eq_true, beq_iff_eq, Expr.beqL_eq_true_iff cs1 cs2, Expr.node.injEq]

theorem Expr.beqL_eq_true_iff : ∀ xs ys : List Expr, Expr.beqL xs ys = true ↔ xs = ys
| [], [] => by simp [Expr.beqL]
| [], _ :: _ => by simp [Expr.beqL]
| _ :: _, [] => by simp [Expr.beqL]
| x :: xs, y :: ys => by
  simp only [Expr.beqL, Bool.and_eq_true, Expr.beq_eq_true_iff x y, Expr.beqL_eq_true_iff xs ys,
    List.cons.injEq]

end

instance : DecidableEq Expr := fun a b => decidable_of_iff _ (Expr.beq_eq_true_iff a b)

def Literal (v : LitValue) : Expr := .node (.lit v) []

def AtomicTypeLiteral.for_nonlocal_type (cppType : String) : Expr :=
  .node (.atomic cppType false .typeType) []

def AtomicTypeLiteral.for_local (cppType : String) (type : ExprType) : Expr :=
  .node (.atomic cppType true type) []

def AtomicTypeLiteral.for_nonlocal_template (cppType : String) (argTypes : List ExprType)
    (isMetafunctionThatMayReturnError : Bool) : Expr :=
  .node (.atomic cppType false (.templateType argTypes isMetafunctionThatMayReturnError)) []

def PointerTypeExpr (e : Expr) : Expr := .node .pointerType [e]

def ReferenceTypeExpr (e : Expr) : Expr := .node .referenceType [e]

def RvalueReferenceTypeExpr (e : Expr) : Expr := .node .rvalueReferenceType [e]

def ConstTypeExpr (e : Expr) : Expr := .node .constType [e]

def ArrayTypeExpr (e : Expr) : Expr := .node .arrayType [e]

def FunctionTypeExpr (returnTypeExpr : Expr) (argExprs : List Expr) : Expr :=
  .node .functionType (returnTypeExpr :: argExprs)

def ComparisonExpr (lhs rhs : Expr) (op : String) : Expr := .node (.comparison op) [lhs, rhs]

def Int64BinaryOpExpr (lhs rhs : Expr) (op : String) : Expr :=
  .node (.int64BinaryOp op) [lhs, rhs]

def NotExpr (e : Expr) : Expr := .node .notOp [e]

def UnaryMinusExpr (e : Expr) : Expr := .node .unaryMinus [e]

def TemplateInstantiation (templateExpr : Expr) (args : List Expr)
    (instantiationMightTriggerStaticAsserts : Bool) : Expr :=
  .node (.templateInstantiation instantiationMightTriggerStaticAsserts) (templateExpr :: args)

def ClassMemberAccess (classTypeExpr : Expr) (memberName : String)
    (memberType : ExprType) : Expr :=
  .node (.classMemberAccess memberName memberType) [classTypeExpr]

def VariadicTypeExpansion (e : Expr) : Expr := .node .variadicExpansion [e]

/-- The three-valued unification outcome. -/
inductive UnificationResultKind
| CERTAIN
| POSSIBLE
| IMPOSSIBLE
deriving DecidableEq

/-- A value bound to a pattern variable: a single expression, or (for a
variadic pattern variable) an ordered sequence of expressions. -/
inductive Value
| single (e : Expr)
| multi (es : List Expr)
deriving DecidableEq

abbrev Bindings := List (String × Value)

/-- One raw matching possibility produced by the structural walk: a flag
recording whether some comparison was only POSSIBLE (ambiguous under
shadowing), and the occurrence-ordered variable bindings it requires. -/
abbrev Candidate := Bool × Bindings

/-- `some v` when the expression is a bare identifier whose name is a
pattern free variable. -/
def varName? (patternVars : List String) : Expr → Option String
| .node (.atomic n _ _) [] => if n ∈ patternVars then some n else none
| _ => none

/-- `some v` when the expression is a variadic expansion wrapping a bare
identifier whose name is a pattern free variable. -/
def variadicVarName? (patternVars : List String) : Expr → Option String
| .node .variadicExpansion [c] => varName? patternVars c
| _ => none

def isLocalHead : Head → Bool
| .atomic _ l _ => l
| _ => false

/-- Modelled from the spec (ambiguity rule): the same textual identifier is a
free variable on the expr side and a nominal local on the pattern side, so the
engine can prove neither match nor mismatch under shadowing. -/
def ambiguousPair (exprVars patternVars : List String) (e p : Expr) : Bool :=
  match e, p with
  | .node (.atomic n true t) [], .node (.atomic n2 true t2) [] =>
    if n = n2 ∧ t = t2 ∧ n ∈ exprVars ∧ n ∉ patternVars then true else false
  | _, _ => false

/-- Cross-product combination of the matching possibilities of two independent
sub-problems: ambiguity flags are or-ed, bindings concatenated in
left-to-right order. -/
def combineCands (cs1 cs2 : List Candidate) : List Candidate :=
  cs1.flatMap fun c1 => cs2.map fun c2 => (c1.1 || c2.1, c1.2 ++ c2.2)

/-!
Modelled from the spec: the structural unification walk
(`_py2tmp.unify_ir0.unify`, absent from the source tree).  It returns every
raw matching possibility of the expr list against the pattern list:

* a pattern-side variadic expansion of a pattern free variable matches any
  contiguous run (possibly empty) of the aligned expr items;
* a pattern-side identifier in `patternVars` binds to the aligned expr
  subtree;
* the shadowing case of `ambiguousPair` yields a possibility flagged
  POSSIBLE;
* nominal local identifiers on opposite sides denote different entities and
  never match; all other nodes match structurally (same head, children
  pairwise). -/
mutual

/-- Modelled from the spec: the structural unification walk; see the comment
above this mutual block. -/
def unifyL (exprVars patternVars : List String) : List Expr → List Expr → List Candidate
| es, [] => if es = [] then [(false, [])] else []
| es, p :: ps =>
  match variadicVarName? patternVars p with
  | some v => unifySplits exprVars patternVars v [] es ps
  | none =>
    match varName? patternVars p with
    | some v =>
      match es with
      | [] => []
      | e :: es2 =>
        (unifyL exprVars patternVars es2 ps).map fun c => (c.1, (v, Value.single e) :: c.2)
    | none =>
      match es with
      | [] => []
      | e :: es2 =>
        let headCands :=
          if ambiguousPair exprVars patternVars e p then [(true, ([] : Bindings))]
          else
            match e, p with
            | .node he ces, .node hp cps =>
              if isLocalHead he || isLocalHead hp then []
              else if he = hp then unifyL exprVars patternVars ces cps
              else []
        combineCands headCands (unifyL exprVars patternVars es2 ps)
termination_by es ps => (sizeOf ps, sizeOf es, 0)

/-- Enumerate every contiguous run the variadic pattern variable `v` can
absorb: `taken` is the run consumed so far, `es` the remaining expr items, `ps`
the pattern items after the variadic entry. -/
def unifySplits (exprVars patternVars : List String) (v : String) :
    List Expr → List Expr → List Expr → List Candidate
| taken, es, ps =>
  ((unifyL exprVars patternVars es ps).map fun c =>
    (c.1, (v, Value.multi taken) :: c.2)) ++
  match es with
  | [] => []
  | e :: es2 => unifySplits exprVars patternVars v (taken ++ [e]) es2 ps
termination_by _ es ps => (sizeOf ps, sizeOf es, 1)

end

/-- Applying a substitution of the pattern free variables to a pattern list:
a variadic expansion of a bound variable is spliced as its sequence, a bare
bound variable is replaced by its single value, and every other node is mapped
structurally.  `none` when a variable is used at the wrong arity. -/
def substL (patternVars : List String) (sub : String → Value) :
    List Expr → Option (List Expr)
| [] => some []
| p :: ps =>
  match variadicVarName? patternVars p with
  | some v =>
    match sub v with
    | .multi l => (substL patternVars sub ps).map fun rest => l ++ rest
    | .single _ => none
  | none =>
    match varName? patternVars p with
    | some v =>
      match sub v with
      | .single e => (substL patternVars sub ps).map fun rest => e :: rest
      | .multi _ => none
    | none =>
      match p with
      | .node h cs =>
        match substL patternVars sub cs, substL patternVars sub ps with
        | some cs2, some rest => some (.node h cs2 :: rest)
        | _, _ => none
termination_by ps => sizeOf ps

/-- A raw binding list is consistent when every repeated pattern variable is
bound to structurally identical values. -/
def consistentBindings (bs : Bindings) : Bool :=
  bs.all fun vx => bs.all fun vy => decide (vx.1 = vy.1 → vx.2 = vy.2)

/-- Keep the first occurrence of each bound variable, in binding order. -/
def canonicalBindings (bs : Bindings) : Bindings :=
  bs.foldl (fun acc vx => if acc.any fun vy => decide (vy.1 = vx.1) then acc else acc ++ [vx]) []

structure UnificationResult where
  kind : UnificationResultKind
  valueByPatternVariable : Bindings
deriving DecidableEq

/-- Modelled from the spec: the top-level `unify` entry point.  The fresh-name
supply of the original signature is omitted: it is consumed only to name
synthesized intermediates and never influences the result kind or bindings.
No consistent matching possibility yields IMPOSSIBLE; a unique consistent,
unambiguous one yields CERTAIN with its first-occurrence-ordered bindings;
anything else is POSSIBLE. -/
def unify (exprs patterns : List Expr) (exprVars patternVars : List String) :
    UnificationResult :=
  let good := (unifyL exprVars patternVars exprs patterns).filter
    (fun c => consistentBindings c.2)
  if good.isEmpty then ⟨.IMPOSSIBLE, []⟩
  else if good.all fun d => !d.1 then
    match (good.map fun d => canonicalBindings d.2).dedup with
    | [s] => ⟨.CERTAIN, s⟩
    | _ => ⟨.POSSIBLE, []⟩
  else ⟨.POSSIBLE, []⟩

/-- Interpret a consistent binding list as a substitution. -/
def bindingsLookup (bs : Bindings) (v : String) : Value :=
  match bs.find? fun vx => decide (vx.1 = v) with
  | some vx => vx.2
  | none => .multi []

/-- The candidates produced for one non-variable pattern item against one expr
item: the ambiguity rule, the disjointness of opposite-side local namespaces,
or the structural descent. -/
def headCandsFn (exprVars patternVars : List String) (e p : Expr) : List Candidate :=
  if ambiguousPair exprVars patternVars e p then [(true, ([] : Bindings))]
  else
    match e, p with
    | .node he ces, .node hp cps =>
      if isLocalHead he || isLocalHead hp then []
      else if he = hp then unifyL exprVars patternVars ces cps
      else []

theorem ambiguousPair_spec (ev pv : List String) (e p : Expr)
    (h : ambiguousPair ev pv e p = true) :
    ∃ n t, e = .node (.atomic n true t) [] ∧ p = .node (.atomic n true t) [] ∧
      n ∈ ev ∧ n ∉ pv := by
  unfold ambiguousPair at h
  split at h
  · rename_i n t n2 t2
    split at h
    · rename_i hcond
      obtain ⟨rfl, rfl, hin, hout⟩ := hcond
      exact ⟨n, t, rfl, rfl, hin, hout⟩
    · exact absurd h (by simp)
  · exact absurd h (by simp)

theorem unifyL_cons_variadic (ev pv : List String) (p : Expr) (ps es : List Expr) (v : String)
    (hv : variadicVarName? pv p = some v) :
    unifyL ev pv es (p :: ps) = unifySplits ev pv v [] es ps := by
  cases es with
  | nil => simp only [unifyL.eq_2, hv]
  | cons e es2 =>
    cases e with
    | node h1 cs1 =>
      cases p with
      | node h2 cs2 => simp only [unifyL.eq_3, hv]

theorem unifyL_nil_cons (ev pv : List String) (p : Expr) (ps : List Expr)
    (hnv : variadicVarName? pv p = none) :
    unifyL ev pv [] (p :: ps) = [] := by
  simp only [unifyL.eq_2, hnv]
  cases hx : varName? pv p <;> simp

theorem unifyL_cons_var (ev pv : List String) (e p : Expr) (es2 ps : List Expr) (v : String)
    (hnv : variadicVarName? pv p = none) (hv : varName? pv p = some v) :
    unifyL ev pv (e :: es2) (p :: ps) =
      (unifyL ev pv es2 ps).map fun c => (c.1, (v, Value.single e) :: c.2) := by
  cases e with
  | node h1 cs1 =>
    cases p with
    | node h2 cs2 => simp only [unifyL.eq_3, hnv, hv]

theorem unifyL_cons_fixed (ev pv : List String) (e p : Expr) (es2 ps : List Expr)
    (hnv : variadicVarName? pv p = none) (hv : varName? pv p = none) :
    unifyL ev pv (e :: es2) (p :: ps) =
      combineCands (headCandsFn ev pv e p) (unifyL ev pv es2 ps) := by
  cases e with
  | node h1 cs1 =>
    cases p with
    | node h2 cs2 => simp only [unifyL.eq_3, hnv, hv, headCandsFn]

theorem substL_cons_variadic (pv : List String) (sub : String → Value) (p : Expr)
    (ps : List Expr) (v : String) (l : List Expr)
    (hv : variadicVarName? pv p = some v) (hs : sub v = .multi l) :
    substL pv sub (p :: ps) = (substL pv sub ps).map fun rest => l ++ rest := by
  cases p with
  | node h cs => simp only [substL.eq_2, hv, hs]

theorem substL_cons_var (pv : List String) (sub : String → Value) (p : Expr)
    (ps : List Expr) (v : String) (e : Expr)
    (hnv : variadicVarName? pv p = none) (hv : varName? pv p = some v)
    (hs : sub v = .single e) :
    substL pv sub (p :: ps) = (substL pv sub ps).map fun rest => e :: rest := by
  cases p with
  | node h cs => simp only [substL.eq_2, hnv, hv, hs]

theorem substL_cons_fixed (pv : List String) (sub : String → Value) (h : Head)
    (cs ps cs2 rest : List Expr)
    (hnv : variadicVarName? pv (.node h cs) = none) (hv : varName? pv (.node h cs) = none)
    (hcs : substL pv sub cs = some cs2) (hps : substL pv sub ps = some rest) :
    substL pv sub (Expr.node h cs :: ps) = some (.node h cs2 :: rest) := by
  simp only [substL.eq_2, hnv, hv, hcs, hps]

theorem combineCands_triv_right (l : List Candidate) : combineCands l [(false, [])] = l := by
  induction l with
  | nil => rfl
  | cons c l ih =>
    simp only [combineCands, List.flatMap_cons, List.map_cons, List.map_nil, Bool.or_false,
      List.append_nil] at ih ⊢
    simp [ih]

/-- A one-against-one unification problem reduces to the head-candidate
analysis of the two nodes. -/
theorem unifyL_pair (ev pv : List String) (e p : Expr)
    (hnv : variadicVarName? pv p = none) (hv : varName? pv p = none) :
    unifyL ev pv [e] [p] = headCandsFn ev pv e p := by
  rw [unifyL_cons_fixed ev pv e p [] [] hnv hv, unifyL.eq_1, if_pos rfl,
    combineCands_triv_right]

/-- The head-candidate analysis of an unambiguous pair of nodes: opposite-side
locals never match, equal heads descend into the children, different heads
fail. -/
theorem unify_pair_head (ev pv : List String) (he hp : Head) (ces cps : List Expr)
    (hnv : variadicVarName? pv (.node hp cps) = none)
    (hv : varName? pv (.node hp cps) = none)
    (hamb : ambiguousPair ev pv (.node he ces) (.node hp cps) = false) :
    unifyL ev pv [.node he ces] [.node hp cps]
      = if (isLocalHead he || isLocalHead hp) = true then []
        else if he = hp then unifyL ev pv ces cps else [] := by
  rw [unifyL_pair ev pv _ _ hnv hv]
  unfold headCandsFn
  rw [hamb]
  rfl

theorem unifyL_pair_localside (ev pv : List String) (he hp : Head) (ces cps : List Expr)
    (hnv : variadicVarName? pv (.node hp cps) = none)
    (hv : varName? pv (.node hp cps) = none)
    (hamb : ambiguousPair ev pv (.node he ces) (.node hp cps) = false)
    (hl : (isLocalHead he || isLocalHead hp) = true) :
    unifyL ev pv [.node he ces] [.node hp cps] = [] := by
  rw [unify_pair_head ev pv he hp ces cps hnv hv hamb, if_pos hl]

theorem unifyL_pair_mismatch (ev pv : List String) (he hp : Head) (ces cps : List Expr)
    (hnv : variadicVarName? pv (.node hp cps) = none)
    (hv : varName? pv (.node hp cps) = none)
    (hamb : ambiguousPair ev pv (.node he ces) (.node hp cps) = false)
    (hne : ¬ he = hp) :
    unifyL ev pv [.node he ces] [.node hp cps] = [] := by
  rw [unify_pair_head ev pv he hp ces cps hnv hv hamb]
  by_cases hl : (isLocalHead he || isLocalHead hp) = true
  · rw [if_pos hl]
  · rw [if_neg hl, if_neg hne]

theorem unifyL_pair_descend (ev pv : List String) (he : Head) (ces cps : List Expr)
    (hnv : variadicVarName? pv (.node he cps) = none)
    (hv : varName? pv (.node he cps) = none)
    (hamb : ambiguousPair ev pv (.node he ces) (.node he cps) = false)
    (hl : isLocalHead he = false) :
    unifyL ev pv [.node he ces] [.node he cps] = unifyL ev pv ces cps := by
  rw [unify_pair_head ev pv he he ces cps hnv hv hamb, if_neg (by simp [hl]), if_pos rfl]

theorem unifyL_pointer_pair (ev pv : List String) (e p : Expr) :
    unifyL ev pv [PointerTypeExpr e] [PointerTypeExpr p] = unifyL ev pv [e] [p] := by
  rw [PointerTypeExpr, PointerTypeExpr]
  exact unifyL_pair_descend ev pv .pointerType [e] [p] rfl rfl rfl rfl

/-- The single raw possibility produced when a pattern free variable faces one
expr item. -/
theorem unifyL_single_var_cand (ev pv : List String) (v : String) (t : ExprType) (e : Expr)
    (hv : v ∈ pv) :
    unifyL ev pv [e] [AtomicTypeLiteral.for_local v t] = [(false, [(v, Value.single e)])] := by
  have hvn : varName? pv (AtomicTypeLiteral.for_local v t) = some v := by
    simp [varName?, AtomicTypeLiteral.for_local, hv]
  have hnv : variadicVarName? pv (AtomicTypeLiteral.for_local v t) = none := rfl
  rw [unifyL_cons_var ev pv e _ [] [] v hnv hvn, unifyL.eq_1, if_pos rfl]
  rfl

/-- No raw matching possibility at all means IMPOSSIBLE. -/
theorem unify_of_unifyL_nil (es ps : List Expr) (ev pv : List String)
    (h : unifyL ev pv es ps = []) : unify es ps ev pv = ⟨.IMPOSSIBLE, []⟩ := by
  unfold unify
  rw [h]
  rfl

/-- A single unambiguous consistent raw possibility means CERTAIN with its
canonical bindings. -/
theorem unify_of_unifyL_single (es ps : List Expr) (ev pv : List String) (bs : Bindings)
    (h : unifyL ev pv es ps = [(false, bs)]) (hcons : consistentBindings bs = true) :
    unify es ps ev pv = ⟨.CERTAIN, canonicalBindings bs⟩ := by
  unfold unify
  rw [h]
  simp [hcons, List.dedup]

/-- A pattern free variable facing any single expr subtree binds it, CERTAIN. -/
theorem unify_single_var (v : String) (t : ExprType) (e : Expr) (ev pv : List String)
    (hv : v ∈ pv) :
    unify [e] [AtomicTypeLiteral.for_local v t] ev pv = ⟨.CERTAIN, [(v, .single e)]⟩ := by
  rw [unify_of_unifyL_single _ _ ev pv _ (unifyL_single_var_cand ev pv v t e hv)
    (by simp [consistentBindings])]
  simp [canonicalBindings]

/-- Soundness of the raw walk: every matching possibility it produces, under
any substitution that agrees with the possibility's bindings, makes the
substituted pattern list equal to the expr list. -/
theorem unifyL_sound_mutual (ev pv : List String) (sub : String → Value) :
    (∀ es ps, ∀ c ∈ unifyL ev pv es ps,
      (∀ vx ∈ c.2, sub vx.1 = vx.2) → substL pv sub ps = some es) ∧
    (∀ v taken es ps, ∀ c ∈ unifySplits ev pv v taken es ps,
      (∀ vx ∈ c.2, sub vx.1 = vx.2) →
      ∃ l1 l2, es = l1 ++ l2 ∧ sub v = .multi (taken ++ l1) ∧
        substL pv sub ps = some l2) := by
  refine unifyL.mutual_induct ev pv
    (fun es ps => ∀ c ∈ unifyL ev pv es ps,
      (∀ vx ∈ c.2, sub vx.1 = vx.2) → substL pv sub ps = some es)
    (fun v taken es ps => ∀ c ∈ unifySplits ev pv v taken es ps,
      (∀ vx ∈ c.2, sub vx.1 = vx.2) →
      ∃ l1 l2, es = l1 ++ l2 ∧ sub v = .multi (taken ++ l1) ∧
        substL pv sub ps = some l2)
    ?_ ?_ ?_ ?_ ?_ ?_ ?_ ?_
  · intro c hc hagree
    simp [substL.eq_1]
  · intro es hne c hc hagree
    rw [unifyL.eq_1] at hc
    simp [hne] at hc
  · intro es p ps v hvar ih c hc hagree
    rw [unifyL_cons_variadic ev pv p ps es v hvar] at hc
    obtain ⟨l1, l2, rfl, hsv, hrest⟩ := ih c hc hagree
    rw [substL_cons_variadic pv sub p ps v l1 hvar (by simpa using hsv), hrest]
    rfl
  · intro p ps hnv v hv c hc hagree
    rw [unifyL_nil_cons ev pv p ps hnv] at hc
    exact absurd hc (List.not_mem_nil c)
  · intro p ps hnv v hv e es2 ih c hc hagree
    rw [unifyL_cons_var ev pv e p es2 ps v hnv hv] at hc
    obtain ⟨c0, hc0, rfl⟩ := List.mem_map.mp hc
    have hsv : sub v = .single e := hagree (v, .single e) (by simp)
    have htail : substL pv sub ps = some es2 :=
      ih c0 hc0 (fun vx hvx => hagree vx (by simp [hvx]))
    rw [substL_cons_var pv sub p ps v e hnv hv hsv, htail]
    rfl
  · intro p ps hnv hv c hc hagree
    rw [unifyL_nil_cons ev pv p ps hnv] at hc
    exact absurd hc (List.not_mem_nil c)
  · intro p ps hnv hv e es2 ihhead ihtail c hc hagree
    rw [unifyL_cons_fixed ev pv e p es2 ps hnv hv] at hc
    unfold combineCands at hc
    obtain ⟨c1, hc1, hcm⟩ := List.mem_flatMap.mp hc
    obtain ⟨c2, hc2, rfl⟩ := List.mem_map.mp hcm
    have hagree1 : ∀ vx ∈ c1.2, sub vx.1 = vx.2 :=
      fun vx hvx => hagree vx (List.mem_append.mpr (Or.inl hvx))
    have hagree2 : ∀ vx ∈ c2.2, sub vx.1 = vx.2 :=
      fun vx hvx => hagree vx (List.mem_append.mpr (Or.inr hvx))
    have htail : substL pv sub ps = some es2 := ihtail c2 hc2 hagree2
    unfold headCandsFn at hc1
    by_cases hamb : ambiguousPair ev pv e p = true
    · obtain ⟨n, t, rfl, rfl, hin, hout⟩ := ambiguousPair_spec ev pv e p hamb
      rw [substL_cons_fixed pv sub (.atomic n true t) [] ps [] es2 rfl
        (by simp [varName?, hout]) (by simp [substL.eq_1]) htail]
    · rw [if_neg (by simpa using hamb)] at hc1
      cases e with
      | node h1 cs1 =>
        cases p with
        | node h2 cs2 =>
          have hc1b : c1 ∈ (if (isLocalHead h1 || isLocalHead h2) = true then ([] : List Candidate)
              else if h1 = h2 then unifyL ev pv cs1 cs2 else []) := hc1
          have ihheadb : ∀ c ∈ unifyL ev pv cs1 cs2,
              (∀ vx ∈ c.2, sub vx.1 = vx.2) → substL pv sub cs2 = some cs1 := ihhead
          by_cases hloc : (isLocalHead h1 || isLocalHead h2) = true
          · rw [if_pos hloc] at hc1b
            exact absurd hc1b (List.not_mem_nil c1)
          · rw [if_neg hloc] at hc1b
            by_cases hh : h1 = h2
            · rw [if_pos hh] at hc1b
              have hcs : substL pv sub cs2 = some cs1 := ihheadb c1 hc1b hagree1
              rw [substL_cons_fixed pv sub h2 cs2 ps cs1 es2 hnv hv hcs htail, hh]
            · rw [if_neg hh] at hc1b
              exact absurd hc1b (List.not_mem_nil c1)
  · intro v taken es ps ihbase ihstep c hc hagree
    cases es with
    | nil =>
      rw [unifySplits.eq_1, List.append_nil] at hc
      obtain ⟨c0, hc0, rfl⟩ := List.mem_map.mp hc
      have hsv : sub v = .multi taken := hagree (v, .multi taken) (by simp)
      have hrest : substL pv sub ps = some [] :=
        ihbase c0 hc0 (fun vx hvx => hagree vx (by simp [hvx]))
      exact ⟨[], [], by simp, by simpa using hsv, hrest⟩
    | cons e es2 =>
      rw [unifySplits.eq_2] at hc
      rcases List.mem_append.mp hc with hmem | hmem
      · obtain ⟨c0, hc0, rfl⟩ := List.mem_map.mp hmem
        have hsv : sub v = .multi taken := hagree (v, .multi taken) (by simp)
        have hrest : substL pv sub ps = some (e :: es2) :=
          ihbase c0 hc0 (fun vx hvx => hagree vx (by simp [hvx]))
        exact ⟨[], e :: es2, by simp, by simpa using hsv, hrest⟩
      · obtain ⟨l1, l2, heq, hsv, hrest⟩ := ihstep c hmem hagree
        exact ⟨e :: l1, l2, by simp [heq], by simpa [List.append_assoc] using hsv, hrest⟩

theorem bindingsLookup_agrees (bs : Bindings) (hcons : consistentBindings bs = true) :
    ∀ vx ∈ bs, bindingsLookup bs vx.1 = vx.2 := by
  intro vx hvx
  unfold bindingsLookup
  cases hf : bs.find? (fun vy => decide (vy.1 = vx.1)) with
  | none =>
    exfalso
    have hnone := List.find?_eq_none.mp hf vx hvx
    simp at hnone
  | some vy =>
    have hmem := List.mem_of_find?_eq_some hf
    have hpred : vy.1 = vx.1 := by simpa using List.find?_some hf
    have hall := List.all_eq_true.mp (List.all_eq_true.mp hcons vy hmem) vx hvx
    have himp : ¬vy.1 = vx.1 ∨ vy.2 = vx.2 := by simpa using hall
    rcases himp with hne | hval
    · exact absurd hpred hne
    · exact hval

theorem unify_kind_ne_impossible (es ps : List Expr) (ev pv : List String) (c : Candidate)
    (rest : List Candidate)
    (h : (unifyL ev pv es ps).filter (fun d => consistentBindings d.2) = c :: rest) :
    (unify es ps ev pv).kind ≠ .IMPOSSIBLE := by
  unfold unify
  rw [h]
  simp only [List.isEmpty_cons, if_false, Bool.false_eq_true]
  split
  · split <;> simp
  · simp

theorem unify_not_impossible_exists_subst (es ps : List Expr) (ev pv : List String)
    (h : (unify es ps ev pv).kind ≠ .IMPOSSIBLE) :
    ∃ sub, substL pv sub ps = some es := by
  cases hf : (unifyL ev pv es ps).filter (fun d => consistentBindings d.2) with
  | nil =>
    exfalso
    apply h
    unfold unify
    rw [hf]
    rfl
  | cons c rest =>
    have hcmem : c ∈ (unifyL ev pv es ps).filter (fun d => consistentBindings d.2) := by
      rw [hf]; exact List.mem_cons_self c rest
    have hmem : c ∈ unifyL ev pv es ps := (List.mem_filter.mp hcmem).1
    have hcons : consistentBindings c.2 = true := by
      simpa using (List.mem_filter.mp hcmem).2
    exact ⟨bindingsLookup c.2,
      (unifyL_sound_mutual ev pv (bindingsLookup c.2)).1 es ps c hmem
        (bindingsLookup_agrees c.2 hcons)⟩

/-- C1 (amended): whenever no substitution of the pattern free variables makes
the substituted pattern list structurally identical to the expr list, `unify`
returns IMPOSSIBLE; equivalently, any non-IMPOSSIBLE outcome is witnessed by a
substitution.  (The converse direction of the original claim fails, see the
counterexample: identical nominal locals on the two sides yield IMPOSSIBLE
even though the empty substitution makes the lists identical.) -/
theorem unify_impossible_of_no_substitution (es ps : List Expr) (ev pv : List String)
    (h : ¬ ∃ sub, substL pv sub ps = some es) :
    (unify es ps ev pv).kind = .IMPOSSIBLE := by
  by_contra hk
  exact h (unify_not_impossible_exists_subst es ps ev pv hk)

/-- C1 (counterexample): on expr list `[local T]` and pattern list `[local T]`
with no free variables, `unify` is IMPOSSIBLE although the (empty)
substitution makes the pattern list structurally identical to the expr list —
so "IMPOSSIBLE iff no substitution succeeds" is false as stated. -/
theorem unify_impossible_despite_substitution :
    (unify [AtomicTypeLiteral.for_local "T" .typeType]
      [AtomicTypeLiteral.for_local "T" .typeType] [] []).kind = .IMPOSSIBLE
    ∧ substL [] (fun _ => .multi []) [AtomicTypeLiteral.for_local "T" .typeType]
        = some [AtomicTypeLiteral.for_local "T" .typeType] := by
  constructor
  · simp [unify, unifyL.eq_1, unifyL.eq_2, unifyL.eq_3, unifySplits.eq_1, unifySplits.eq_2,
      varName?, variadicVarName?, ambiguousPair, isLocalHead, combineCands,
      AtomicTypeLiteral.for_local, consistentBindings, canonicalBindings, List.dedup]
  · simp [substL.eq_1, substL.eq_2, varName?, variadicVarName?, AtomicTypeLiteral.for_local]

/-- Witness for the amended C1 at a concrete input: two distinct literals
admit no substitution, and `unify` indeed reports IMPOSSIBLE. -/
theorem unify_impossible_of_no_substitution_witness :
    (unify [Literal (.intV 1)] [Literal (.intV 2)] [] []).kind = .IMPOSSIBLE := by
  refine unify_impossible_of_no_substitution _ _ _ _ ?_
  rintro ⟨sub, hsub⟩
  simp [substL.eq_1, substL.eq_2, varName?, variadicVarName?, Literal] at hsub

/-- C2 (amended): the shadowing degradation is one-directional.  When the
identifier is a free variable on the expr side and a nominal local on the
pattern side, the call returns POSSIBLE; in the reverse direction the
pattern-side free variable simply binds and the call is CERTAIN. -/
theorem unify_shadowing_direction (n : String) (t : ExprType) (ev pv : List String) :
    (n ∈ ev → n ∉ pv →
      unify [AtomicTypeLiteral.for_local n t] [AtomicTypeLiteral.for_local n t] ev pv
        = ⟨.POSSIBLE, []⟩) ∧
    (n ∈ pv →
      unify [AtomicTypeLiteral.for_local n t] [AtomicTypeLiteral.for_local n t] ev pv
        = ⟨.CERTAIN, [(n, .single (AtomicTypeLiteral.for_local n t))]⟩) := by
  constructor
  · intro hin hout
    simp [unify, unifyL.eq_1, unifyL.eq_2, unifyL.eq_3, unifySplits.eq_1, unifySplits.eq_2,
      varName?, variadicVarName?, ambiguousPair, isLocalHead, combineCands,
      AtomicTypeLiteral.for_local, consistentBindings, canonicalBindings, List.dedup,
      hin, hout]
  · intro hin
    simp [unify, unifyL.eq_1, unifyL.eq_2, unifyL.eq_3, unifySplits.eq_1, unifySplits.eq_2,
      varName?, variadicVarName?, ambiguousPair, isLocalHead, combineCands,
      AtomicTypeLiteral.for_local, consistentBindings, canonicalBindings, List.dedup,
      hin]

/-- C2 (counterexample): with the free variable on the pattern side and the
same-spelled nominal local on the expr side, the call is CERTAIN, not
POSSIBLE — the claimed both-direction degradation fails. -/
theorem unify_pattern_side_free_is_certain :
    (unify [AtomicTypeLiteral.for_local "T" .typeType]
      [AtomicTypeLiteral.for_local "T" .typeType] [] ["T"]).kind = .CERTAIN
    ∧ (unify [AtomicTypeLiteral.for_local "T" .typeType]
      [AtomicTypeLiteral.for_local "T" .typeType] [] ["T"]).kind ≠ .POSSIBLE := by
  constructor <;>
    simp [unify, unifyL.eq_1, unifyL.eq_2, unifyL.eq_3, unifySplits.eq_1, unifySplits.eq_2,
      varName?, variadicVarName?, ambiguousPair, isLocalHead, combineCands,
      AtomicTypeLiteral.for_local, consistentBindings, canonicalBindings, List.dedup]

/-- Witness for the amended C2 at concrete inputs: both directions. -/
theorem unify_shadowing_direction_witness :
    unify [AtomicTypeLiteral.for_local "T" .typeType]
      [AtomicTypeLiteral.for_local "T" .typeType] ["T"] [] = ⟨.POSSIBLE, []⟩
    ∧ unify [AtomicTypeLiteral.for_local "U" .typeType]
      [AtomicTypeLiteral.for_local "U" .typeType] [] ["U"]
        = ⟨.CERTAIN, [("U", .single (AtomicTypeLiteral.for_local "U" .typeType))]⟩ :=
  ⟨(unify_shadowing_direction "T" .typeType ["T"] []).1 (by simp) (by simp),
   (unify_shadowing_direction "U" .typeType [] ["U"]).2 (by simp)⟩

/-- C3 (amended): nominal nonlocal identifiers match exactly by equality of
their text (CERTAIN with no bindings when it is the whole problem, IMPOSSIBLE
otherwise); nominal local identifiers on the expr side and the pattern side
denote different entities and never match, even with identical text. -/
theorem unify_nominal_identifiers (n1 n2 : String) (t1 t2 : ExprType) (ev pv : List String) :
    (n2 ∉ pv →
      unify [AtomicTypeLiteral.for_nonlocal_type n1]
        [AtomicTypeLiteral.for_nonlocal_type n2] ev pv
        = if n1 = n2 then ⟨.CERTAIN, []⟩ else ⟨.IMPOSSIBLE, []⟩) ∧
    (n1 ∉ ev → n2 ∉ pv →
      unify [AtomicTypeLiteral.for_local n1 t1]
        [AtomicTypeLiteral.for_local n2 t2] ev pv = ⟨.IMPOSSIBLE, []⟩) := by
  constructor
  · intro hout
    by_cases hn : n1 = n2
    · subst hn
      simp [unify, unifyL.eq_1, unifyL.eq_2, unifyL.eq_3, unifySplits.eq_1, unifySplits.eq_2,
        varName?, variadicVarName?, ambiguousPair, isLocalHead, combineCands,
        AtomicTypeLiteral.for_nonlocal_type, consistentBindings, canonicalBindings,
        List.dedup, hout]
    · simp [unify, unifyL.eq_1, unifyL.eq_2, unifyL.eq_3, unifySplits.eq_1, unifySplits.eq_2,
        varName?, variadicVarName?, ambiguousPair, isLocalHead, combineCands,
        AtomicTypeLiteral.for_nonlocal_type, consistentBindings, canonicalBindings,
        List.dedup, hout, hn]
  · intro hin hout
    simp [unify, unifyL.eq_1, unifyL.eq_2, unifyL.eq_3, unifySplits.eq_1, unifySplits.eq_2,
      varName?, variadicVarName?, ambiguousPair, isLocalHead, combineCands,
      AtomicTypeLiteral.for_local, consistentBindings, canonicalBindings, List.dedup,
      hin, hout]

/-- C3 (counterexample): two nominal local identifiers with identical text
(free on neither side) yield IMPOSSIBLE, not a match — the claim's "holds for
local-bound identifiers as well" is false. -/
theorem unify_equal_text_locals_impossible :
    (unify [AtomicTypeLiteral.for_local "T" .typeType]
      [AtomicTypeLiteral.for_local "T" .typeType] [] []).kind = .IMPOSSIBLE
    ∧ (unify [AtomicTypeLiteral.for_local "T" .typeType]
      [AtomicTypeLiteral.for_local "T" .typeType] [] []).kind ≠ .CERTAIN := by
  constructor <;>
    simp [unify, unifyL.eq_1, unifyL.eq_2, unifyL.eq_3, unifySplits.eq_1, unifySplits.eq_2,
      varName?, variadicVarName?, ambiguousPair, isLocalHead, combineCands,
      AtomicTypeLiteral.for_local, consistentBindings, canonicalBindings, List.dedup]

/-- Witness for the amended C3 at concrete inputs. -/
theorem unify_nominal_identifiers_witness :
    unify [AtomicTypeLiteral.for_nonlocal_type "int"]
      [AtomicTypeLiteral.for_nonlocal_type "int"] [] [] = ⟨.CERTAIN, []⟩
    ∧ unify [AtomicTypeLiteral.for_nonlocal_type "int"]
      [AtomicTypeLiteral.for_nonlocal_type "float"] [] [] = ⟨.IMPOSSIBLE, []⟩
    ∧ unify [AtomicTypeLiteral.for_local "X" .typeType]
      [AtomicTypeLiteral.for_local "X" .typeType] [] [] = ⟨.IMPOSSIBLE, []⟩ := by
  refine ⟨?_, ?_, ?_⟩
  · have h := (unify_nominal_identifiers "int" "int" .typeType .typeType [] []).1 (by simp)
    simpa using h
  · have h := (unify_nominal_identifiers "int" "float" .typeType .typeType [] []).1 (by simp)
    simpa using h
  · exact (unify_nominal_identifiers "X" "X" .typeType .typeType [] []).2 (by simp) (by simp)

/-- A head that can anchor a variadic alignment: not a local identifier and
not a pattern free variable, so it matches only itself. -/
def headRigid (patternVars : List String) : Head → Bool
| .atomic n isLocal _ => !isLocal && !(decide (n ∈ patternVars))
| _ => true

/-- Every node in the list has a rigid head (recursively). -/
def RigidL (patternVars : List String) : List Expr → Bool
| [] => true
| .node h cs :: ps => headRigid patternVars h && (RigidL patternVars cs && RigidL patternVars ps)
termination_by ps => sizeOf ps

theorem rigid_varName_none (pv : List String) (h : Head) (cs : List Expr)
    (hh : headRigid pv h = true) : varName? pv (.node h cs) = none := by
  unfold varName?
  split
  · rename_i n lo t heq
    obtain ⟨rfl, rfl⟩ : h = .atomic n lo t ∧ cs = [] := by
      have := (Expr.node.injEq _ _ _ _).mp heq
      exact ⟨this.1, this.2⟩
    simp only [headRigid, Bool.and_eq_true, Bool.not_eq_eq_eq_not, Bool.not_true,
      decide_eq_false_iff_not] at hh
    simp [hh.2]
  · rfl

theorem rigid_variadicVarName_none (pv : List String) (h : Head) (cs : List Expr)
    (hcs : RigidL pv cs = true) : variadicVarName? pv (.node h cs) = none := by
  unfold variadicVarName?
  split
  · rename_i c heq
    obtain ⟨rfl, rfl⟩ : h = .variadicExpansion ∧ cs = [c] := by
      have := (Expr.node.injEq _ _ _ _).mp heq
      exact ⟨this.1, this.2⟩
    cases c with
    | node hc ccs =>
      rw [RigidL] at hcs
      simp only [Bool.and_eq_true] at hcs
      exact rigid_varName_none pv hc ccs hcs.1
  · rfl

theorem rigid_ambiguousPair_false (ev pv : List String) (e : Expr) (h : Head) (cs : List Expr)
    (hh : headRigid pv h = true) : ambiguousPair ev pv e (.node h cs) = false := by
  by_contra hcontra
  rw [Bool.not_eq_false] at hcontra
  obtain ⟨n, t, _, hp, _, _⟩ := ambiguousPair_spec ev pv e _ hcontra
  have hinj := (Expr.node.injEq _ _ _ _).mp hp
  rw [hinj.1] at hh
  simp [headRigid] at hh

theorem rigid_isLocalHead_false (pv : List String) (h : Head)
    (hh : headRigid pv h = true) : isLocalHead h = false := by
  cases h <;> simp_all [headRigid, isLocalHead]

theorem combineCands_nil_right (l : List Candidate) : combineCands l [] = [] := by
  induction l with
  | nil => rfl
  | cons c l ih => simp [combineCands] at ih ⊢

theorem combineCands_single_trivial (l : List Candidate) :
    combineCands [(false, [])] l = l := by
  simp [combineCands]

/-- A rigid pattern list matches exactly itself, with no bindings and no
ambiguity. -/
theorem unifyL_rigid_aux (ev pv : List String) :
    ∀ n ps, sizeOf ps < n → RigidL pv ps = true →
    ∀ es, unifyL ev pv es ps = if es = ps then [(false, [])] else [] := by
  intro n
  induction n with
  | zero => intro ps hsz; omega
  | succ n ih =>
    intro ps hsz hrig es
    cases ps with
    | nil =>
      rw [unifyL.eq_1]
    | cons p ps2 =>
      cases p with
      | node h cs =>
        rw [RigidL] at hrig
        simp only [Bool.and_eq_true] at hrig
        have hh := hrig.1
        have hcs := hrig.2.1
        have hps2 := hrig.2.2
        have hnv := rigid_variadicVarName_none pv h cs hcs
        have hvn := rigid_varName_none pv h cs hh
        have hsz2 : sizeOf ps2 < n := by
          have : sizeOf (Expr.node h cs :: ps2) = 1 + sizeOf (Expr.node h cs) + sizeOf ps2 := by
            simp
          have hpos : 0 < sizeOf (Expr.node h cs) := by
            simp
          omega
        have hszcs : sizeOf cs < n := by
          have h1 : sizeOf (Expr.node h cs) = 1 + sizeOf h + sizeOf cs := by simp
          have h2 : sizeOf (Expr.node h cs :: ps2) = 1 + sizeOf (Expr.node h cs) + sizeOf ps2 := by
            simp
          have hpos : 0 < sizeOf h := by cases h <;> simp
          omega
        cases es with
        | nil =>
          rw [unifyL_nil_cons ev pv _ _ hnv]
          have : ([] : List Expr) ≠ Expr.node h cs :: ps2 := by simp
          simp [this]
        | cons e es2 =>
          rw [unifyL_cons_fixed ev pv e _ es2 ps2 hnv hvn]
          cases e with
          | node he ces =>
            have hhead : headCandsFn ev pv (Expr.node he ces) (Expr.node h cs) =
                if (isLocalHead he || isLocalHead h) = true then []
                else if he = h then unifyL ev pv ces cs else [] := by
              unfold headCandsFn
              rw [rigid_ambiguousPair_false ev pv _ h cs hh, if_neg (by simp)]
            rw [hhead, rigid_isLocalHead_false pv h hh]
            by_cases hloc : isLocalHead he = true
            · rw [hloc]
              simp only [Bool.true_or, if_true]
              have hne : Expr.node he ces ≠ Expr.node h cs := by
                intro hcontra
                have hinj := (Expr.node.injEq _ _ _ _).mp hcontra
                rw [hinj.1] at hloc
                rw [rigid_isLocalHead_false pv h hh] at hloc
                exact absurd hloc (by simp)
              simp [combineCands, hne]
            · rw [Bool.not_eq_true] at hloc
              rw [hloc]
              rw [if_neg (by simp)]
              by_cases hhe : he = h
              · subst hhe
                rw [if_pos rfl]
                rw [ih cs hszcs hcs ces, ih ps2 hsz2 hps2 es2]
                by_cases hces : ces = cs
                · subst hces
                  rw [if_pos rfl]
                  by_cases hes2 : es2 = ps2
                  · subst hes2
                    rw [if_pos rfl, combineCands_single_trivial, if_pos rfl]
                  · rw [if_neg hes2, combineCands_nil_right,
                      if_neg (by simp [hes2])]
                · rw [if_neg hces]
                  simp [combineCands, hces]
              · rw [if_neg hhe]
                simp [combineCands, hhe]

theorem unifyL_rigid (ev pv : List String) (ps : List Expr) (hrig : RigidL pv ps = true)
    (es : List Expr) :
    unifyL ev pv es ps = if es = ps then [(false, [])] else [] :=
  unifyL_rigid_aux ev pv (sizeOf ps + 1) ps (by omega) hrig es

/-- A rigid fixed prefix common to both lists is consumed without producing
any binding or ambiguity: it anchors the alignment. -/
theorem unifyL_rigid_prefix (ev pv : List String) :
    ∀ fp, RigidL pv fp = true → ∀ es ps,
    unifyL ev pv (fp ++ es) (fp ++ ps) = unifyL ev pv es ps := by
  intro fp
  induction fp with
  | nil => intro hrig es ps; rfl
  | cons p fp2 ihfp =>
    intro hrig es ps
    cases p with
    | node h cs =>
      rw [RigidL] at hrig
      simp only [Bool.and_eq_true] at hrig
      have hh := hrig.1
      have hcs := hrig.2.1
      have hfp2 := hrig.2.2
      have hnv := rigid_variadicVarName_none pv h cs hcs
      have hvn := rigid_varName_none pv h cs hh
      rw [List.cons_append, List.cons_append,
        unifyL_cons_fixed ev pv _ _ (fp2 ++ es) (fp2 ++ ps) hnv hvn]
      have hhead : headCandsFn ev pv (Expr.node h cs) (Expr.node h cs) =
          if (isLocalHead h || isLocalHead h) = true then []
          else if h = h then unifyL ev pv cs cs else [] := by
        unfold headCandsFn
        rw [rigid_ambiguousPair_false ev pv _ h cs hh, if_neg (by simp)]
      rw [hhead, rigid_isLocalHead_false pv h hh, if_neg (by simp), if_pos rfl,
        unifyL_rigid ev pv cs hcs cs, if_pos rfl, combineCands_single_trivial,
        ihfp hfp2 es ps]

/-- With only rigid items after the variadic entry, the run the variadic
variable absorbs is forced: the expr list must end exactly with the rigid
suffix, and the variable takes everything before it. -/
theorem unifySplits_rigid_short (ev pv : List String) (v : String) (ps : List Expr)
    (hrig : RigidL pv ps = true) :
    ∀ es taken, es.length < ps.length → unifySplits ev pv v taken es ps = [] := by
  intro es
  induction es with
  | nil =>
    intro taken hlen
    rw [unifySplits.eq_1, List.append_nil, unifyL_rigid ev pv ps hrig []]
    have hne : ([] : List Expr) ≠ ps := by
      intro hcontra
      rw [← hcontra] at hlen
      simp at hlen
    rw [if_neg hne]
    rfl
  | cons e es2 ihes =>
    intro taken hlen
    rw [unifySplits.eq_2, unifyL_rigid ev pv ps hrig (e :: es2)]
    have hne : e :: es2 ≠ ps := by
      intro hcontra
      rw [← hcontra] at hlen
      omega
    rw [if_neg hne, ihes (taken ++ [e]) (by simp at hlen ⊢; omega)]
    rfl

theorem unifySplits_rigid (ev pv : List String) (v : String) (fs : List Expr)
    (hrig : RigidL pv fs = true) :
    ∀ mid taken, unifySplits ev pv v taken (mid ++ fs) fs
      = [(false, [(v, Value.multi (taken ++ mid))])] := by
  intro mid
  induction mid with
  | nil =>
    intro taken
    cases fs with
    | nil =>
      rw [List.nil_append, unifySplits.eq_1, List.append_nil, unifyL.eq_1, if_pos rfl]
      simp
    | cons f fs2 =>
      rw [List.nil_append, unifySplits.eq_2, unifyL_rigid ev pv _ hrig _, if_pos rfl]
      have hshort := unifySplits_rigid_short ev pv v (f :: fs2) hrig fs2 (taken ++ [f])
        (by simp)
      rw [hshort]
      simp
  | cons m mid2 ihmid =>
    intro taken
    rw [List.cons_append, unifySplits.eq_2, unifyL_rigid ev pv _ hrig _]
    have hne : m :: (mid2 ++ fs) ≠ fs := by
      intro hcontra
      have : (m :: (mid2 ++ fs)).length = fs.length := by rw [hcontra]
      simp at this
      omega
    rw [if_neg hne, ihmid (taken ++ [m])]
    simp

/-- Candidate-level form of the anchored variadic run: with rigid anchors the
walk produces exactly one possibility, binding the variadic variable to the
run between the anchors. -/
theorem unifyL_variadic_run (ev pv : List String) (v : String) (t : ExprType)
    (fp mid fs : List Expr) (hfp : RigidL pv fp = true) (hfs : RigidL pv fs = true)
    (hv : v ∈ pv) :
    unifyL ev pv (fp ++ mid ++ fs)
      (fp ++ VariadicTypeExpansion (AtomicTypeLiteral.for_local v t) :: fs)
      = [(false, [(v, Value.multi mid)])] := by
  have hvv : variadicVarName? pv (VariadicTypeExpansion (AtomicTypeLiteral.for_local v t))
      = some v := by
    simp [variadicVarName?, varName?, VariadicTypeExpansion, AtomicTypeLiteral.for_local, hv]
  rw [List.append_assoc, unifyL_rigid_prefix ev pv fp hfp (mid ++ fs) _,
    unifyL_cons_variadic ev pv _ fs (mid ++ fs) v hvv,
    unifySplits_rigid ev pv v fs hfs mid [], List.nil_append]

/-- A variadic-expansion pattern entry, anchored by rigid fixed prefix and
suffix items, matches exactly the contiguous run of expr items between the
anchors, and the call is CERTAIN with that single binding. -/
theorem unify_variadic_run_general (ev pv : List String) (v : String) (t : ExprType)
    (fp mid fs : List Expr) (hfp : RigidL pv fp = true) (hfs : RigidL pv fs = true)
    (hv : v ∈ pv) :
    unify (fp ++ mid ++ fs)
      (fp ++ VariadicTypeExpansion (AtomicTypeLiteral.for_local v t) :: fs) ev pv
      = ⟨.CERTAIN, [(v, .multi mid)]⟩ := by
  rw [unify_of_unifyL_single _ _ ev pv _
    (unifyL_variadic_run ev pv v t fp mid fs hfp hfs hv) (by simp [consistentBindings])]
  simp [canonicalBindings]

/-- C4: a variadic pattern entry matches the contiguous run (possibly empty)
of aligned expr items between the rigid fixed prefix and suffix anchors,
preserving positional order and capturing nested expr-side variadic variables
inside the run; in particular `Func(int,[float,double])` against
`Func(int,[Expand(Ts)])` with `Ts` free is CERTAIN with
`Ts ↦ [float, double]`. -/
theorem unify_variadic_run :
    (∀ (ev pv : List String) (v : String) (t : ExprType) (fp mid fs : List Expr),
      RigidL pv fp = true → RigidL pv fs = true → v ∈ pv →
      unify (fp ++ mid ++ fs)
        (fp ++ VariadicTypeExpansion (AtomicTypeLiteral.for_local v t) :: fs) ev pv
        = ⟨.CERTAIN, [(v, .multi mid)]⟩) ∧
    unify [FunctionTypeExpr (AtomicTypeLiteral.for_nonlocal_type "int")
            [AtomicTypeLiteral.for_nonlocal_type "float",
             AtomicTypeLiteral.for_nonlocal_type "double"]]
      [FunctionTypeExpr (AtomicTypeLiteral.for_nonlocal_type "int")
        [VariadicTypeExpansion (AtomicTypeLiteral.for_local "Ts" .variadicType)]] [] ["Ts"]
      = ⟨.CERTAIN, [("Ts", .multi [AtomicTypeLiteral.for_nonlocal_type "float",
                                   AtomicTypeLiteral.for_nonlocal_type "double"])]⟩ := by
  constructor
  · exact unify_variadic_run_general
  · have hfp : RigidL ["Ts"] [AtomicTypeLiteral.for_nonlocal_type "int"] = true := by
      simp [RigidL, headRigid, AtomicTypeLiteral.for_nonlocal_type]
    have h1 := unifyL_variadic_run [] ["Ts"] "Ts" .variadicType
      [AtomicTypeLiteral.for_nonlocal_type "int"]
      [AtomicTypeLiteral.for_nonlocal_type "float", AtomicTypeLiteral.for_nonlocal_type "double"]
      [] hfp (by rw [RigidL]) (by simp)
    simp only [List.append_nil, List.cons_append, List.nil_append] at h1
    have hL : unifyL [] ["Ts"]
        [FunctionTypeExpr (AtomicTypeLiteral.for_nonlocal_type "int")
          [AtomicTypeLiteral.for_nonlocal_type "float",
           AtomicTypeLiteral.for_nonlocal_type "double"]]
        [FunctionTypeExpr (AtomicTypeLiteral.for_nonlocal_type "int")
          [VariadicTypeExpansion (AtomicTypeLiteral.for_local "Ts" .variadicType)]]
        = [(false, [("Ts", Value.multi [AtomicTypeLiteral.for_nonlocal_type "float",
                                        AtomicTypeLiteral.for_nonlocal_type "double"])])] := by
      rw [FunctionTypeExpr, FunctionTypeExpr,
        unifyL_pair_descend [] ["Ts"] .functionType _ _ rfl rfl rfl rfl]
      exact h1
    rw [unify_of_unifyL_single _ _ [] ["Ts"] _ hL (by simp [consistentBindings])]
    simp [canonicalBindings]

/-- Witness for C4: the anchored-run statement applied at a concrete input
with nonempty prefix and suffix anchors and a nested expr-side variadic
variable inside the matched run. -/
theorem unify_variadic_run_witness :
    unify [AtomicTypeLiteral.for_nonlocal_type "float",
           VariadicTypeExpansion (AtomicTypeLiteral.for_local "Us" .variadicType),
           AtomicTypeLiteral.for_nonlocal_type "char",
           AtomicTypeLiteral.for_nonlocal_type "void"]
      [AtomicTypeLiteral.for_nonlocal_type "float",
       VariadicTypeExpansion (AtomicTypeLiteral.for_local "Ts" .variadicType),
       AtomicTypeLiteral.for_nonlocal_type "void"] ["Us"] ["Ts"]
      = ⟨.CERTAIN,
         [("Ts", .multi [VariadicTypeExpansion (AtomicTypeLiteral.for_local "Us" .variadicType),
                         AtomicTypeLiteral.for_nonlocal_type "char"])]⟩ := by
  have h := unify_variadic_run.1 ["Us"] ["Ts"] "Ts" .variadicType
    [AtomicTypeLiteral.for_nonlocal_type "float"]
    [VariadicTypeExpansion (AtomicTypeLiteral.for_local "Us" .variadicType),
     AtomicTypeLiteral.for_nonlocal_type "char"]
    [AtomicTypeLiteral.for_nonlocal_type "void"]
    (by simp [RigidL, headRigid, AtomicTypeLiteral.for_nonlocal_type])
    (by simp [RigidL, headRigid, AtomicTypeLiteral.for_nonlocal_type])
    (by simp)
  simpa using h

/-- C5: a pattern-side identifier in the pattern free-variable set binds to
any expr-side subtree (a local identifier of the expr side included); when the
same pattern variable occurs twice, the call is CERTAIN with a single emitted
binding exactly when both bound occurrences are structurally identical, and
IMPOSSIBLE otherwise. -/
theorem unify_pattern_variable_binding (v : String) (t : ExprType) (e e1 e2 : Expr)
    (ev pv : List String) (hv : v ∈ pv) :
    unify [e] [AtomicTypeLiteral.for_local v t] ev pv = ⟨.CERTAIN, [(v, .single e)]⟩ ∧
    unify [e1, e2] [AtomicTypeLiteral.for_local v t, AtomicTypeLiteral.for_local v t] ev pv
      = if e1 = e2 then ⟨.CERTAIN, [(v, .single e1)]⟩ else ⟨.IMPOSSIBLE, []⟩ := by
  have hvn : varName? pv (AtomicTypeLiteral.for_local v t) = some v := by
    simp [varName?, AtomicTypeLiteral.for_local, hv]
  have hnv : variadicVarName? pv (AtomicTypeLiteral.for_local v t) = none := rfl
  constructor
  · unfold unify
    rw [unifyL_cons_var ev pv e _ [] [] v hnv hvn, unifyL.eq_1, if_pos rfl]
    simp [consistentBindings, canonicalBindings, List.dedup]
  · unfold unify
    rw [unifyL_cons_var ev pv e1 _ [e2] [AtomicTypeLiteral.for_local v t] v hnv hvn,
      unifyL_cons_var ev pv e2 _ [] [] v hnv hvn, unifyL.eq_1, if_pos rfl]
    by_cases he : e1 = e2
    · subst he
      simp [consistentBindings, canonicalBindings, List.dedup]
    · simp [consistentBindings, canonicalBindings, List.dedup, he]

/-- Witness for C5: the variable binds a whole subtree and an expr-side local;
repeated identical occurrences give one binding, conflicting ones are
IMPOSSIBLE. -/
theorem unify_pattern_variable_binding_witness :
    unify [PointerTypeExpr (AtomicTypeLiteral.for_nonlocal_type "int")]
      [AtomicTypeLiteral.for_local "T" .typeType] [] ["T"]
      = ⟨.CERTAIN, [("T", .single (PointerTypeExpr (AtomicTypeLiteral.for_nonlocal_type "int")))]⟩
    ∧ unify [AtomicTypeLiteral.for_local "X" .typeType]
      [AtomicTypeLiteral.for_local "T" .typeType] [] ["T"]
      = ⟨.CERTAIN, [("T", .single (AtomicTypeLiteral.for_local "X" .typeType))]⟩
    ∧ unify [AtomicTypeLiteral.for_nonlocal_type "int", AtomicTypeLiteral.for_nonlocal_type "int"]
      [AtomicTypeLiteral.for_local "T" .typeType, AtomicTypeLiteral.for_local "T" .typeType]
      [] ["T"]
      = ⟨.CERTAIN, [("T", .single (AtomicTypeLiteral.for_nonlocal_type "int"))]⟩
    ∧ unify [AtomicTypeLiteral.for_nonlocal_type "int", AtomicTypeLiteral.for_nonlocal_type "float"]
      [AtomicTypeLiteral.for_local "T" .typeType, AtomicTypeLiteral.for_local "T" .typeType]
      [] ["T"]
      = ⟨.IMPOSSIBLE, []⟩ := by
  refine ⟨?_, ?_, ?_, ?_⟩
  · exact (unify_pattern_variable_binding "T" .typeType
      (PointerTypeExpr (AtomicTypeLiteral.for_nonlocal_type "int"))
      (Literal (.intV 0)) (Literal (.intV 0)) [] ["T"] (by simp)).1
  · exact (unify_pattern_variable_binding "T" .typeType
      (AtomicTypeLiteral.for_local "X" .typeType)
      (Literal (.intV 0)) (Literal (.intV 0)) [] ["T"] (by simp)).1
  · have h := (unify_pattern_variable_binding "T" .typeType (Literal (.intV 0))
      (AtomicTypeLiteral.for_nonlocal_type "int")
      (AtomicTypeLiteral.for_nonlocal_type "int") [] ["T"] (by simp)).2
    simpa using h
  · have h := (unify_pattern_variable_binding "T" .typeType (Literal (.intV 0))
      (AtomicTypeLiteral.for_nonlocal_type "int")
      (AtomicTypeLiteral.for_nonlocal_type "float") [] ["T"] (by simp)).2
    rw [h, if_neg (by simp [AtomicTypeLiteral.for_nonlocal_type])]

/-- C9: `unify` is a total function whose result kind is always one of
CERTAIN, POSSIBLE, IMPOSSIBLE; exhaustion — no matching possibility with
consistent bindings survives — is exactly what produces IMPOSSIBLE, never an
error; in particular the exhausted variadic alignment of the cited test
(`Func(int,[])` against `Func(int,[float,Expand(Ts)])`) yields IMPOSSIBLE. -/
theorem unify_never_raises (es ps : List Expr) (ev pv : List String) :
    ((unify es ps ev pv).kind = .IMPOSSIBLE ↔
      ∀ c ∈ unifyL ev pv es ps, consistentBindings c.2 = false) ∧
    ((unify es ps ev pv).kind = .CERTAIN ∨ (unify es ps ev pv).kind = .POSSIBLE ∨
      (unify es ps ev pv).kind = .IMPOSSIBLE) ∧
    (unify [FunctionTypeExpr (AtomicTypeLiteral.for_nonlocal_type "int") []]
      [FunctionTypeExpr (AtomicTypeLiteral.for_nonlocal_type "int")
        [AtomicTypeLiteral.for_nonlocal_type "float",
         VariadicTypeExpansion (AtomicTypeLiteral.for_local "Ts" .variadicType)]]
      [] ["Ts"]).kind = .IMPOSSIBLE := by
  refine ⟨?_, ?_, ?_⟩
  · cases hf : (unifyL ev pv es ps).filter (fun c => consistentBindings c.2) with
    | nil =>
      constructor
      · intro _ c hc
        have hall := List.filter_eq_nil_iff.mp hf c hc
        simpa using hall
      · intro _
        unfold unify
        rw [hf]
        rfl
    | cons c rest =>
      constructor
      · intro hk
        exact absurd hk (unify_kind_ne_impossible es ps ev pv c rest hf)
      · intro hall
        exfalso
        have hcmem : c ∈ (unifyL ev pv es ps).filter (fun d => consistentBindings d.2) := by
          rw [hf]; exact List.mem_cons_self c rest
        have hmem := (List.mem_filter.mp hcmem).1
        have hcons : consistentBindings c.2 = true := by
          simpa using (List.mem_filter.mp hcmem).2
        rw [hall c hmem] at hcons
        exact absurd hcons (by simp)
  · cases hk : (unify es ps ev pv).kind
    · exact Or.inl rfl
    · exact Or.inr (Or.inl rfl)
    · exact Or.inr (Or.inr rfl)
  · have h2 : unifyL [] ["Ts"] []
        [AtomicTypeLiteral.for_nonlocal_type "float",
         VariadicTypeExpansion (AtomicTypeLiteral.for_local "Ts" .variadicType)] = [] :=
      unifyL_nil_cons [] ["Ts"] _ _ rfl
    have h3 : unifyL [] ["Ts"] [AtomicTypeLiteral.for_nonlocal_type "int"]
        (AtomicTypeLiteral.for_nonlocal_type "int" ::
          [AtomicTypeLiteral.for_nonlocal_type "float",
           VariadicTypeExpansion (AtomicTypeLiteral.for_local "Ts" .variadicType)]) = [] := by
      rw [unifyL_cons_fixed [] ["Ts"] (AtomicTypeLiteral.for_nonlocal_type "int")
        (AtomicTypeLiteral.for_nonlocal_type "int") []
        [AtomicTypeLiteral.for_nonlocal_type "float",
         VariadicTypeExpansion (AtomicTypeLiteral.for_local "Ts" .variadicType)] rfl
        (by simp [varName?, AtomicTypeLiteral.for_nonlocal_type]), h2, combineCands_nil_right]
    have h4 : unifyL [] ["Ts"]
        [FunctionTypeExpr (AtomicTypeLiteral.for_nonlocal_type "int") []]
        [FunctionTypeExpr (AtomicTypeLiteral.for_nonlocal_type "int")
          [AtomicTypeLiteral.for_nonlocal_type "float",
           VariadicTypeExpansion (AtomicTypeLiteral.for_local "Ts" .variadicType)]] = [] := by
      rw [FunctionTypeExpr, FunctionTypeExpr,
        unifyL_pair_descend [] ["Ts"] .functionType _ _ rfl rfl rfl rfl]
      exact h3
    rw [unify_of_unifyL_nil _ _ [] ["Ts"] h4]

/-- Modelled from the spec: one case of a pattern-match construct — a pattern,
its bindable variables, and the result expression it produces. -/
structure MatchCase where
  pattern : Expr
  vars : List String
  result : Expr
deriving DecidableEq

/-- A ground input matches a case when unifying it against the case's pattern
(with the case's variables bindable) is CERTAIN. -/
def caseMatches (input : Expr) (c : MatchCase) : Bool :=
  decide ((unify [input] [c.pattern] [] c.vars).kind = .CERTAIN)

/-- Modelled from the spec (4.3): case `ci` is more specific than case `cj`
iff unifying `cj`'s pattern against `ci`'s pattern — `cj`'s free variables
bindable, `ci`'s fixed — is CERTAIN while the reverse direction is not. -/
def moreSpecific (ci cj : MatchCase) : Bool :=
  decide ((unify [ci.pattern] [cj.pattern] [] cj.vars).kind = .CERTAIN) &&
  !decide ((unify [cj.pattern] [ci.pattern] [] ci.vars).kind = .CERTAIN)

/-- Modelled from the spec (4.3): resolution picks, among the cases matching
the input, the unique one that is more specific than every other match, and
produces its result with the unification's bindings substituted in; no match
or an ambiguity (no unique most specific case) is the distinguished `none`
outcome, never an arbitrary pick. -/
def resolveMatch (cases : List MatchCase) (input : Expr) : Option Expr :=
  let matching := cases.filter (caseMatches input)
  match matching.filter (fun c => matching.all fun d => decide (d = c) || moreSpecific c d) with
  | [c] =>
    match substL c.vars
        (bindingsLookup (unify [input] [c.pattern] [] c.vars).valueByPatternVariable)
        [c.result] with
    | some [r] => some r
    | _ => none
  | _ => none

/-- First case of the spec's Example 4: `T → ref(T)`. -/
def exCase1 : MatchCase :=
  ⟨AtomicTypeLiteral.for_local "T" .typeType, ["T"],
    ReferenceTypeExpr (AtomicTypeLiteral.for_local "T" .typeType)⟩

/-- Second case of the spec's Example 4: `Pointer(T) → rref(T)`. -/
def exCase2 : MatchCase :=
  ⟨PointerTypeExpr (AtomicTypeLiteral.for_local "T" .typeType), ["T"],
    RvalueReferenceTypeExpr (AtomicTypeLiteral.for_local "T" .typeType)⟩

/-- Third case of the spec's Example 4: `Pointer(Pointer(T)) → arr(T)`. -/
def exCase3 : MatchCase :=
  ⟨PointerTypeExpr (PointerTypeExpr (AtomicTypeLiteral.for_local "T" .typeType)), ["T"],
    ArrayTypeExpr (AtomicTypeLiteral.for_local "T" .typeType)⟩

/-- The three cases of the spec's Example 4:
`[T → ref(T), Pointer(T) → rref(T), Pointer(Pointer(T)) → arr(T)]`. -/
def exampleRankingCases : List MatchCase := [exCase1, exCase2, exCase3]

set_option maxHeartbeats 3200000 in
/-- C6: on the case list `[T → ref(T), Pointer(T) → rref(T),
Pointer(Pointer(T)) → arr(T)]`, resolution picks the most specific matching
case: `Pointer(Pointer(int))` selects case 3 producing `arr(int)`,
`Pointer(int)` selects case 2 producing `rref(int)`, and `int` selects case 1
producing `ref(int)`. -/
theorem resolveMatch_example_ranking :
    resolveMatch exampleRankingCases
      (PointerTypeExpr (PointerTypeExpr (AtomicTypeLiteral.for_nonlocal_type "int")))
      = some (ArrayTypeExpr (AtomicTypeLiteral.for_nonlocal_type "int"))
    ∧ resolveMatch exampleRankingCases
      (PointerTypeExpr (AtomicTypeLiteral.for_nonlocal_type "int"))
      = some (RvalueReferenceTypeExpr (AtomicTypeLiteral.for_nonlocal_type "int"))
    ∧ resolveMatch exampleRankingCases (AtomicTypeLiteral.for_nonlocal_type "int")
      = some (ReferenceTypeExpr (AtomicTypeLiteral.for_nonlocal_type "int")) := by
  have hp1 : exCase1.pattern = AtomicTypeLiteral.for_local "T" .typeType := rfl
  have hp2 : exCase2.pattern = PointerTypeExpr (AtomicTypeLiteral.for_local "T" .typeType) := rfl
  have hp3 : exCase3.pattern
      = PointerTypeExpr (PointerTypeExpr (AtomicTypeLiteral.for_local "T" .typeType)) := rfl
  have hvs1 : exCase1.vars = ["T"] := rfl
  have hvs2 : exCase2.vars = ["T"] := rfl
  have hvs3 : exCase3.vars = ["T"] := rfl
  have hr1 : exCase1.result
      = ReferenceTypeExpr (AtomicTypeLiteral.for_local "T" .typeType) := rfl
  have hr2 : exCase2.result
      = RvalueReferenceTypeExpr (AtomicTypeLiteral.for_local "T" .typeType) := rfl
  have hr3 : exCase3.result = ArrayTypeExpr (AtomicTypeLiteral.for_local "T" .typeType) := rfl
  have hU11 : unify [AtomicTypeLiteral.for_nonlocal_type "int"]
      [AtomicTypeLiteral.for_local "T" .typeType] [] ["T"]
      = ⟨.CERTAIN, [("T", .single (AtomicTypeLiteral.for_nonlocal_type "int"))]⟩ :=
    unify_single_var "T" .typeType _ [] ["T"] (by simp)
  have hU21 : unify [PointerTypeExpr (AtomicTypeLiteral.for_nonlocal_type "int")]
      [AtomicTypeLiteral.for_local "T" .typeType] [] ["T"]
      = ⟨.CERTAIN, [("T", .single (PointerTypeExpr (AtomicTypeLiteral.for_nonlocal_type "int")))]⟩ :=
    unify_single_var "T" .typeType _ [] ["T"] (by simp)
  have hU31 : unify [PointerTypeExpr (PointerTypeExpr (AtomicTypeLiteral.for_nonlocal_type "int"))]
      [AtomicTypeLiteral.for_local "T" .typeType] [] ["T"]
      = ⟨.CERTAIN, [("T", .single (PointerTypeExpr
          (PointerTypeExpr (AtomicTypeLiteral.for_nonlocal_type "int"))))]⟩ :=
    unify_single_var "T" .typeType _ [] ["T"] (by simp)
  have hc22 : unifyL [] ["T"] [PointerTypeExpr (AtomicTypeLiteral.for_nonlocal_type "int")]
      [PointerTypeExpr (AtomicTypeLiteral.for_local "T" .typeType)]
      = [(false, [("T", Value.single (AtomicTypeLiteral.for_nonlocal_type "int"))])] := by
    rw [unifyL_pointer_pair]
    exact unifyL_single_var_cand [] ["T"] "T" .typeType _ (by simp)
  have hU22 : unify [PointerTypeExpr (AtomicTypeLiteral.for_nonlocal_type "int")]
      [PointerTypeExpr (AtomicTypeLiteral.for_local "T" .typeType)] [] ["T"]
      = ⟨.CERTAIN, [("T", .single (AtomicTypeLiteral.for_nonlocal_type "int"))]⟩ := by
    rw [unify_of_unifyL_single _ _ [] ["T"] _ hc22 (by simp [consistentBindings])]
    simp [canonicalBindings]
  have hc32 : unifyL [] ["T"]
      [PointerTypeExpr (PointerTypeExpr (AtomicTypeLiteral.for_nonlocal_type "int"))]
      [PointerTypeExpr (AtomicTypeLiteral.for_local "T" .typeType)]
      = [(false, [("T", Value.single
          (PointerTypeExpr (AtomicTypeLiteral.for_nonlocal_type "int")))])] := by
    rw [unifyL_pointer_pair]
    exact unifyL_single_var_cand [] ["T"] "T" .typeType _ (by simp)
  have hU32 : unify
      [PointerTypeExpr (PointerTypeExpr (AtomicTypeLiteral.for_nonlocal_type "int"))]
      [PointerTypeExpr (AtomicTypeLiteral.for_local "T" .typeType)] [] ["T"]
      = ⟨.CERTAIN, [("T", .single (PointerTypeExpr (AtomicTypeLiteral.for_nonlocal_type "int")))]⟩ := by
    rw [unify_of_unifyL_single _ _ [] ["T"] _ hc32 (by simp [consistentBindings])]
    simp [canonicalBindings]
  have hc33 : unifyL [] ["T"]
      [PointerTypeExpr (PointerTypeExpr (AtomicTypeLiteral.for_nonlocal_type "int"))]
      [PointerTypeExpr (PointerTypeExpr (AtomicTypeLiteral.for_local "T" .typeType))]
      = [(false, [("T", Value.single (AtomicTypeLiteral.for_nonlocal_type "int"))])] := by
    rw [unifyL_pointer_pair, unifyL_pointer_pair]
    exact unifyL_single_var_cand [] ["T"] "T" .typeType _ (by simp)
  have hU33 : unify
      [PointerTypeExpr (PointerTypeExpr (AtomicTypeLiteral.for_nonlocal_type "int"))]
      [PointerTypeExpr (PointerTypeExpr (AtomicTypeLiteral.for_local "T" .typeType))] [] ["T"]
      = ⟨.CERTAIN, [("T", .single (AtomicTypeLiteral.for_nonlocal_type "int"))]⟩ := by
    rw [unify_of_unifyL_single _ _ [] ["T"] _ hc33 (by simp [consistentBindings])]
    simp [canonicalBindings]
  have hcm12 : unifyL [] ["T"] [AtomicTypeLiteral.for_nonlocal_type "int"]
      [PointerTypeExpr (AtomicTypeLiteral.for_local "T" .typeType)] = [] :=
    unifyL_pair_mismatch [] ["T"] (.atomic "int" false .typeType) .pointerType []
      [AtomicTypeLiteral.for_local "T" .typeType] rfl rfl rfl (by simp)
  have hU12 : unify [AtomicTypeLiteral.for_nonlocal_type "int"]
      [PointerTypeExpr (AtomicTypeLiteral.for_local "T" .typeType)] [] ["T"]
      = ⟨.IMPOSSIBLE, []⟩ := unify_of_unifyL_nil _ _ [] ["T"] hcm12
  have hcm13 : unifyL [] ["T"] [AtomicTypeLiteral.for_nonlocal_type "int"]
      [PointerTypeExpr (PointerTypeExpr (AtomicTypeLiteral.for_local "T" .typeType))] = [] :=
    unifyL_pair_mismatch [] ["T"] (.atomic "int" false .typeType) .pointerType []
      [PointerTypeExpr (AtomicTypeLiteral.for_local "T" .typeType)] rfl rfl rfl (by simp)
  have hU13 : unify [AtomicTypeLiteral.for_nonlocal_type "int"]
      [PointerTypeExpr (PointerTypeExpr (AtomicTypeLiteral.for_local "T" .typeType))] [] ["T"]
      = ⟨.IMPOSSIBLE, []⟩ := unify_of_unifyL_nil _ _ [] ["T"] hcm13
  have hc23 : unifyL [] ["T"] [PointerTypeExpr (AtomicTypeLiteral.for_nonlocal_type "int")]
      [PointerTypeExpr (PointerTypeExpr (AtomicTypeLiteral.for_local "T" .typeType))] = [] := by
    rw [unifyL_pointer_pair]
    exact hcm12
  have hU23 : unify [PointerTypeExpr (AtomicTypeLiteral.for_nonlocal_type "int")]
      [PointerTypeExpr (PointerTypeExpr (AtomicTypeLiteral.for_local "T" .typeType))] [] ["T"]
      = ⟨.IMPOSSIBLE, []⟩ := unify_of_unifyL_nil _ _ [] ["T"] hc23
  have hcp12 : unifyL [] ["T"] [AtomicTypeLiteral.for_local "T" .typeType]
      [PointerTypeExpr (AtomicTypeLiteral.for_local "T" .typeType)] = [] :=
    unifyL_pair_localside [] ["T"] (.atomic "T" true .typeType) .pointerType []
      [AtomicTypeLiteral.for_local "T" .typeType] rfl rfl rfl rfl
  have hM12 : unify [AtomicTypeLiteral.for_local "T" .typeType]
      [PointerTypeExpr (AtomicTypeLiteral.for_local "T" .typeType)] [] ["T"]
      = ⟨.IMPOSSIBLE, []⟩ := unify_of_unifyL_nil _ _ [] ["T"] hcp12
  have hcp13 : unifyL [] ["T"] [AtomicTypeLiteral.for_local "T" .typeType]
      [PointerTypeExpr (PointerTypeExpr (AtomicTypeLiteral.for_local "T" .typeType))] = [] :=
    unifyL_pair_localside [] ["T"] (.atomic "T" true .typeType) .pointerType []
      [PointerTypeExpr (AtomicTypeLiteral.for_local "T" .typeType)] rfl rfl rfl rfl
  have hM13 : unify [AtomicTypeLiteral.for_local "T" .typeType]
      [PointerTypeExpr (PointerTypeExpr (AtomicTypeLiteral.for_local "T" .typeType))] [] ["T"]
      = ⟨.IMPOSSIBLE, []⟩ := unify_of_unifyL_nil _ _ [] ["T"] hcp13
  have hM21 : unify [PointerTypeExpr (AtomicTypeLiteral.for_local "T" .typeType)]
      [AtomicTypeLiteral.for_local "T" .typeType] [] ["T"]
      = ⟨.CERTAIN, [("T", .single (PointerTypeExpr (AtomicTypeLiteral.for_local "T" .typeType)))]⟩ :=
    unify_single_var "T" .typeType _ [] ["T"] (by simp)
  have hcp23 : unifyL [] ["T"] [PointerTypeExpr (AtomicTypeLiteral.for_local "T" .typeType)]
      [PointerTypeExpr (PointerTypeExpr (AtomicTypeLiteral.for_local "T" .typeType))] = [] := by
    rw [unifyL_pointer_pair]
    exact hcp12
  have hM23 : unify [PointerTypeExpr (AtomicTypeLiteral.for_local "T" .typeType)]
      [PointerTypeExpr (PointerTypeExpr (AtomicTypeLiteral.for_local "T" .typeType))] [] ["T"]
      = ⟨.IMPOSSIBLE, []⟩ := unify_of_unifyL_nil _ _ [] ["T"] hcp23
  have hM31 : unify
      [PointerTypeExpr (PointerTypeExpr (AtomicTypeLiteral.for_local "T" .typeType))]
      [AtomicTypeLiteral.for_local "T" .typeType] [] ["T"]
      = ⟨.CERTAIN, [("T", .single (PointerTypeExpr
          (PointerTypeExpr (AtomicTypeLiteral.for_local "T" .typeType))))]⟩ :=
    unify_single_var "T" .typeType _ [] ["T"] (by simp)
  have hcp32 : unifyL [] ["T"]
      [PointerTypeExpr (PointerTypeExpr (AtomicTypeLiteral.for_local "T" .typeType))]
      [PointerTypeExpr (AtomicTypeLiteral.for_local "T" .typeType)]
      = [(false, [("T", Value.single
          (PointerTypeExpr (AtomicTypeLiteral.for_local "T" .typeType)))])] := by
    rw [unifyL_pointer_pair]
    exact unifyL_single_var_cand [] ["T"] "T" .typeType _ (by simp)
  have hM32 : unify
      [PointerTypeExpr (PointerTypeExpr (AtomicTypeLiteral.for_local "T" .typeType))]
      [PointerTypeExpr (AtomicTypeLiteral.for_local "T" .typeType)] [] ["T"]
      = ⟨.CERTAIN, [("T", .single (PointerTypeExpr (AtomicTypeLiteral.for_local "T" .typeType)))]⟩ := by
    rw [unify_of_unifyL_single _ _ [] ["T"] _ hcp32 (by simp [consistentBindings])]
    simp [canonicalBindings]
  have cm11 : caseMatches (AtomicTypeLiteral.for_nonlocal_type "int") exCase1 = true := by
    simp only [caseMatches, hp1, hvs1, hU11]
    simp
  have cm12 : caseMatches (AtomicTypeLiteral.for_nonlocal_type "int") exCase2 = false := by
    simp only [caseMatches, hp2, hvs2, hU12]
    simp
  have cm13 : caseMatches (AtomicTypeLiteral.for_nonlocal_type "int") exCase3 = false := by
    simp only [caseMatches, hp3, hvs3, hU13]
    simp
  have cm21 : caseMatches (PointerTypeExpr (AtomicTypeLiteral.for_nonlocal_type "int"))
      exCase1 = true := by
    simp only [caseMatches, hp1, hvs1, hU21]
    simp
  have cm22 : caseMatches (PointerTypeExpr (AtomicTypeLiteral.for_nonlocal_type "int"))
      exCase2 = true := by
    simp only [caseMatches, hp2, hvs2, hU22]
    simp
  have cm23 : caseMatches (PointerTypeExpr (AtomicTypeLiteral.for_nonlocal_type "int"))
      exCase3 = false := by
    simp only [caseMatches, hp3, hvs3, hU23]
    simp
  have cm31 : caseMatches
      (PointerTypeExpr (PointerTypeExpr (AtomicTypeLiteral.for_nonlocal_type "int")))
      exCase1 = true := by
    simp only [caseMatches, hp1, hvs1, hU31]
    simp
  have cm32 : caseMatches
      (PointerTypeExpr (PointerTypeExpr (AtomicTypeLiteral.for_nonlocal_type "int")))
      exCase2 = true := by
    simp only [caseMatches, hp2, hvs2, hU32]
    simp
  have cm33 : caseMatches
      (PointerTypeExpr (PointerTypeExpr (AtomicTypeLiteral.for_nonlocal_type "int")))
      exCase3 = true := by
    simp only [caseMatches, hp3, hvs3, hU33]
    simp
  have ms12 : moreSpecific exCase1 exCase2 = false := by
    simp only [moreSpecific, hp1, hp2, hvs1, hvs2, hM12]
    simp
  have ms13 : moreSpecific exCase1 exCase3 = false := by
    simp only [moreSpecific, hp1, hp3, hvs1, hvs3, hM13]
    simp
  have ms21 : moreSpecific exCase2 exCase1 = true := by
    simp only [moreSpecific, hp1, hp2, hvs1, hvs2, hM21, hM12]
    simp
  have ms23 : moreSpecific exCase2 exCase3 = false := by
    simp only [moreSpecific, hp2, hp3, hvs2, hvs3, hM23]
    simp
  have ms31 : moreSpecific exCase3 exCase1 = true := by
    simp only [moreSpecific, hp1, hp3, hvs1, hvs3, hM31, hM13]
    simp
  have ms32 : moreSpecific exCase3 exCase2 = true := by
    simp only [moreSpecific, hp2, hp3, hvs2, hvs3, hM32, hM23]
    simp
  have d11 : decide (exCase1 = exCase1) = true := rfl
  have d12 : decide (exCase1 = exCase2) = false := rfl
  have d13 : decide (exCase1 = exCase3) = false := rfl
  have d21 : decide (exCase2 = exCase1) = false := rfl
  have d22 : decide (exCase2 = exCase2) = true := rfl
  have d23 : decide (exCase2 = exCase3) = false := rfl
  have d31 : decide (exCase3 = exCase1) = false := rfl
  have d32 : decide (exCase3 = exCase2) = false := rfl
  have d33 : decide (exCase3 = exCase3) = true := rfl
  have hsubT : substL ["T"]
      (bindingsLookup [("T", Value.single (AtomicTypeLiteral.for_nonlocal_type "int"))])
      [AtomicTypeLiteral.for_local "T" .typeType]
      = some [AtomicTypeLiteral.for_nonlocal_type "int"] := by
    rw [substL_cons_var ["T"]
      (bindingsLookup [("T", Value.single (AtomicTypeLiteral.for_nonlocal_type "int"))])
      (AtomicTypeLiteral.for_local "T" .typeType) [] "T"
      (AtomicTypeLiteral.for_nonlocal_type "int") rfl
      (by simp [varName?, AtomicTypeLiteral.for_local]) rfl, substL.eq_1]
    rfl
  have hsub1 : substL ["T"]
      (bindingsLookup [("T", Value.single (AtomicTypeLiteral.for_nonlocal_type "int"))])
      [ReferenceTypeExpr (AtomicTypeLiteral.for_local "T" .typeType)]
      = some [ReferenceTypeExpr (AtomicTypeLiteral.for_nonlocal_type "int")] := by
    rw [ReferenceTypeExpr, ReferenceTypeExpr,
      substL_cons_fixed ["T"] _ .referenceType [AtomicTypeLiteral.for_local "T" .typeType] []
        [AtomicTypeLiteral.for_nonlocal_type "int"] [] rfl rfl hsubT (by rw [substL.eq_1])]
  have hsub2 : substL ["T"]
      (bindingsLookup [("T", Value.single (AtomicTypeLiteral.for_nonlocal_type "int"))])
      [RvalueReferenceTypeExpr (AtomicTypeLiteral.for_local "T" .typeType)]
      = some [RvalueReferenceTypeExpr (AtomicTypeLiteral.for_nonlocal_type "int")] := by
    rw [RvalueReferenceTypeExpr, RvalueReferenceTypeExpr,
      substL_cons_fixed ["T"] _ .rvalueReferenceType
        [AtomicTypeLiteral.for_local "T" .typeType] []
        [AtomicTypeLiteral.for_nonlocal_type "int"] [] rfl rfl hsubT (by rw [substL.eq_1])]
  have hsub3 : substL ["T"]
      (bindingsLookup [("T", Value.single (AtomicTypeLiteral.for_nonlocal_type "int"))])
      [ArrayTypeExpr (AtomicTypeLiteral.for_local "T" .typeType)]
      = some [ArrayTypeExpr (AtomicTypeLiteral.for_nonlocal_type "int")] := by
    rw [ArrayTypeExpr, ArrayTypeExpr,
      substL_cons_fixed ["T"] _ .arrayType [AtomicTypeLiteral.for_local "T" .typeType] []
        [AtomicTypeLiteral.for_nonlocal_type "int"] [] rfl rfl hsubT (by rw [substL.eq_1])]
  refine ⟨?_, ?_, ?_⟩
  · simp [resolveMatch, exampleRankingCases, cm31, cm32, cm33,
      d11, d12, d13, d21, d22, d23, d31, d32, d33,
      ms12, ms13, ms21, ms23, ms31, ms32, hp3, hvs3, hr3, hU33, hsub3]
  · simp [resolveMatch, exampleRankingCases, cm21, cm22, cm23,
      d11, d12, d21, d22, ms12, ms21, hp2, hvs2, hr2, hU22, hsub2]
  · simp [resolveMatch, exampleRankingCases, cm11, cm12, cm13,
      d11, hp1, hvs1, hr1, hU11, hsub1]

/-- Modelled from the spec (4.4): one step of the Optimization Driver — it
selects the first enabled pass (the first one, in the fixed pass order, that
changes the program) and applies it to the whole program.  The relation leaves
the selection a priori open; determinism is a theorem, not a definition. -/
inductive DriverStep {α : Type} (passes : List (α → α)) : α → α → Prop
| step (i : Fin passes.length) (P : α)
    (hfirst : ∀ j : Fin passes.length, j.val < i.val → passes.get j P = P)
    (hchange : passes.get i P ≠ P) :
    DriverStep passes P (passes.get i P)

/-- No pass changes the program: the driver has converged. -/
def DriverConverged {α : Type} (passes : List (α → α)) (P : α) : Prop :=
  ∀ Q, ¬ DriverStep passes P Q

/-- Modelled from the spec (4.4): a budgeted driver run — it stops when the
budget is exhausted (a budget of zero disables optimization) or when no pass
changes the program, and otherwise performs a step and continues. -/
inductive BudgetRun {α : Type} (passes : List (α → α)) : Nat → α → α → Prop
| stop (P : α) : BudgetRun passes 0 P P
| converged (k : Nat) (P : α) (hconv : DriverConverged passes P) : BudgetRun passes k P P
| step (k : Nat) (P Q R : α) (h : DriverStep passes P Q) (hrun : BudgetRun passes k Q R) :
    BudgetRun passes (k + 1) P R

/-- The reflexive-transitive closure of driver steps. -/
inductive DriverSteps {α : Type} (passes : List (α → α)) : α → α → Prop
| refl (P : α) : DriverSteps passes P P
| head (P Q R : α) (h : DriverStep passes P Q) (t : DriverSteps passes Q R) :
    DriverSteps passes P R

/-- Modelled from the spec (4.4): an unbounded-budget driver run — steps until
no pass changes the program. -/
def UnboundedRun {α : Type} (passes : List (α → α)) (P R : α) : Prop :=
  DriverSteps passes P R ∧ DriverConverged passes R

theorem driverStep_deterministic {α : Type} (passes : List (α → α)) (P Q1 Q2 : α)
    (h1 : DriverStep passes P Q1) (h2 : DriverStep passes P Q2) : Q1 = Q2 := by
  cases h1 with
  | step i1 _ hfirst1 hchange1 =>
    cases h2 with
    | step i2 _ hfirst2 hchange2 =>
      rcases Nat.lt_trichotomy i1.val i2.val with hlt | heq | hgt
      · exact absurd (hfirst2 i1 hlt) hchange1
      · have hi : i1 = i2 := Fin.ext heq
        rw [hi]
      · exact absurd (hfirst1 i2 hgt) hchange2

/-- C7: the Optimization Driver is deterministic for a fixed budget — from
the same program with the same budget, any two runs reach the same output
program.  (In the model the pass selection is a relation; this theorem shows
it admits at most one outcome, so `optimize(P, k)` is a pure function of
`(P, k)`, which is what external bisection over the budget relies on.) -/
theorem driver_budget_deterministic {α : Type} (passes : List (α → α)) (k : Nat)
    (P R1 R2 : α) (h1 : BudgetRun passes k P R1) (h2 : BudgetRun passes k P R2) :
    R1 = R2 := by
  induction h1 generalizing R2 with
  | stop P =>
    cases h2 with
    | stop _ => rfl
    | converged _ _ _ => rfl
  | converged k P hconv =>
    cases h2 with
    | stop _ => rfl
    | converged _ _ _ => rfl
    | step _ _ Q _ hstep _ => exact absurd hstep (hconv Q)
  | step k P Q R hstep hrun ih =>
    cases h2 with
    | converged _ _ hconv => exact absurd hstep (hconv Q)
    | step _ _ Q2 _ hstep2 hrun2 =>
      have hq : Q = Q2 := driverStep_deterministic passes P Q Q2 hstep hstep2
      subst hq
      exact ih R2 hrun2

/-- Witness for C7: a concrete two-derivation instance on a decrement pass. -/
theorem driver_budget_deterministic_witness :
    BudgetRun [fun n : Nat => n - 1] 1 (1 : Nat) 0 ∧ (0 : Nat) = 0 := by
  have hstep : DriverStep [fun n : Nat => n - 1] (1 : Nat) 0 := by
    have h := @DriverStep.step Nat [fun n : Nat => n - 1] ⟨0, by simp⟩ 1
      (by intro j hj; exact absurd hj (Nat.not_lt_zero _)) (by simp)
    simpa using h
  have hrun : BudgetRun [fun n : Nat => n - 1] 1 (1 : Nat) 0 :=
    .step 0 1 0 0 hstep (.stop 0)
  exact ⟨hrun, driver_budget_deterministic [fun n : Nat => n - 1] 1 1 0 0 hrun hrun⟩

/-- C8: the driver with an unbounded budget is idempotent — if an unbounded
run takes `P` to `Q`, then `Q` is converged, running again from `Q` is itself
a valid unbounded run, and any unbounded run from `Q` returns `Q` itself:
`optimize(optimize(P)) = optimize(P)`. -/
theorem driver_unbounded_idempotent {α : Type} (passes : List (α → α)) (P Q R : α)
    (h1 : UnboundedRun passes P Q) (h2 : UnboundedRun passes Q R) :
    R = Q ∧ UnboundedRun passes Q Q := by
  constructor
  · cases h2.1 with
    | refl _ => rfl
    | head _ Q2 _ hstep _ => exact absurd hstep (h1.2 Q2)
  · exact ⟨.refl Q, h1.2⟩

/-- Witness for C8: a concrete unbounded run of the decrement pass from 2 to
0, rerun from 0. -/
theorem driver_unbounded_idempotent_witness :
    UnboundedRun [fun n : Nat => n - 1] (2 : Nat) 0 ∧ (0 : Nat) = 0 := by
  have hstep : ∀ n : Nat, 0 < n → DriverStep [fun n : Nat => n - 1] n (n - 1) := by
    intro n hn
    have h := @DriverStep.step Nat [fun n : Nat => n - 1] ⟨0, by simp⟩ n
      (by intro j hj; exact absurd hj (Nat.not_lt_zero _)) (by simp; omega)
    simpa using h
  have hconv : DriverConverged [fun n : Nat => n - 1] (0 : Nat) := by
    intro Q hq
    cases hq with
    | step i _ hfirst hchange =>
      apply hchange
      have h0 : i.val = 0 := by
        have hlt : i.val < 1 := i.isLt
        omega
      have hi : i = ⟨0, by simp⟩ := Fin.ext h0
      subst hi
      rfl
  have hrun : UnboundedRun [fun n : Nat => n - 1] (2 : Nat) 0 :=
    ⟨.head 2 1 0 (hstep 2 (by omega)) (.head 1 0 0 (by simpa using hstep 1 (by omega))
      (.refl 0)), hconv⟩
  have hrun0 : UnboundedRun [fun n : Nat => n - 1] (0 : Nat) 0 := ⟨.refl 0, hconv⟩
  exact ⟨hrun, (driver_unbounded_idempotent [fun n : Nat => n - 1] 2 0 0 hrun hrun0).1⟩

theorem bisect_middle_bounds (g b : Int) (h : g + 1 < b) :
    g < (g + b + 1).fdiv 2 ∧ (g + b + 1).fdiv 2 < b := by
  rw [Int.fdiv_eq_ediv _ (by omega)]
  have h1 := Int.ediv_add_emod (g + b + 1) 2
  have h2 : 0 ≤ (g + b + 1) % 2 := Int.emod_nonneg _ (by omega)
  have h3 : (g + b + 1) % 2 < 2 := Int.emod_lt_of_pos _ (by omega)
  omega

/-- Translated from `_py2tmp/compiler/testing/_utils.py`: binary search for
the boundary between a good and a bad step count.  Python's floor division
`//` is `Int.fdiv`. -/
def bisect_with_predicate (lastKnownGood firstKnownBad : Int) (isGood : Int → Bool) : Int :=
  if h : lastKnownGood + 1 < firstKnownBad then
    if isGood ((lastKnownGood + firstKnownBad + 1).fdiv 2) then
      bisect_with_predicate ((lastKnownGood + firstKnownBad + 1).fdiv 2) firstKnownBad isGood
    else
      bisect_with_predicate lastKnownGood ((lastKnownGood + firstKnownBad + 1).fdiv 2) isGood
  else firstKnownBad
termination_by (firstKnownBad - lastKnownGood).toNat
decreasing_by
  · have hb := bisect_middle_bounds lastKnownGood firstKnownBad h
    omega
  · have hb := bisect_middle_bounds lastKnownGood firstKnownBad h
    omega

/-- C10: for `last_known_good < first_known_bad`, `bisect_with_predicate`
terminates (it is a total function of its arguments) and returns `n` with
`last_known_good < n ≤ first_known_bad` such that `n - 1` satisfied the
predicate or equals the initial `last_known_good`, and `n` failed the
predicate or equals the initial `first_known_bad`; for a monotone predicate
that is true exactly up to a threshold `c` inside the searched interval, the
returned `n` is `c + 1`, the first failing value. -/
theorem bisect_with_predicate_spec (g b : Int) (p : Int → Bool) (h : g < b) :
    g < bisect_with_predicate g b p ∧ bisect_with_predicate g b p ≤ b ∧
    (bisect_with_predicate g b p = g + 1 ∨ p (bisect_with_predicate g b p - 1) = true) ∧
    (bisect_with_predicate g b p = b ∨ p (bisect_with_predicate g b p) = false) ∧
    (∀ c : Int, g ≤ c → c < b → (∀ m, p m = true ↔ m ≤ c) →
      bisect_with_predicate g b p = c + 1) := by
  have hmain : g < b → (g < bisect_with_predicate g b p ∧ bisect_with_predicate g b p ≤ b ∧
      (bisect_with_predicate g b p = g + 1 ∨ p (bisect_with_predicate g b p - 1) = true) ∧
      (bisect_with_predicate g b p = b ∨ p (bisect_with_predicate g b p) = false)) := by
    clear h
    induction g, b, p using bisect_with_predicate.induct with
    | case1 g b p h hgood ih =>
      intro hgb
      rw [bisect_with_predicate, dif_pos h, if_pos hgood]
      have hb := bisect_middle_bounds g b h
      obtain ⟨ih1, ih2, ih3, ih4⟩ := ih (by omega)
      refine ⟨by omega, ih2, ?_, ih4⟩
      rcases ih3 with heq | hp
      · right
        rw [heq]
        simpa using hgood
      · right
        exact hp
    | case2 g b p h hgood ih =>
      intro hgb
      rw [bisect_with_predicate, dif_pos h, if_neg hgood]
      have hb := bisect_middle_bounds g b h
      obtain ⟨ih1, ih2, ih3, ih4⟩ := ih (by omega)
      refine ⟨ih1, by omega, ih3, ?_⟩
      rcases ih4 with heq | hp
      · right
        rw [heq]
        simpa using hgood
      · right
        exact hp
    | case3 g b p h =>
      intro hgb
      rw [bisect_with_predicate, dif_neg h]
      exact ⟨by omega, by omega, by omega, Or.inl rfl⟩
  obtain ⟨h1, h2, h3, h4⟩ := hmain h
  refine ⟨h1, h2, h3, h4, ?_⟩
  intro c hgc hcb hmono
  have hle : bisect_with_predicate g b p ≤ c + 1 := by
    rcases h3 with heq | hp
    · omega
    · have := (hmono (bisect_with_predicate g b p - 1)).mp hp
      omega
  have hge : c + 1 ≤ bisect_with_predicate g b p := by
    rcases h4 with heq | hp
    · omega
    · by_contra hcon
      have hple : bisect_with_predicate g b p ≤ c := by omega
      have := (hmono (bisect_with_predicate g b p)).mpr hple
      rw [hp] at this
      exact absurd this (by simp)
  omega

/-- Witness for C10: the spec applied at the interval `(0, 4)` with the
predicate `m ≤ 1`. -/
theorem bisect_with_predicate_spec_witness :
    (0 : Int) < 4 ∧
    (0 < bisect_with_predicate 0 4 (fun m => decide (m ≤ 1)) ∧
      bisect_with_predicate 0 4 (fun m => decide (m ≤ 1)) ≤ 4 ∧
      (bisect_with_predicate 0 4 (fun m => decide (m ≤ 1)) = 0 + 1 ∨
        decide (bisect_with_predicate 0 4 (fun m => decide (m ≤ 1)) - 1 ≤ 1) = true) ∧
      (bisect_with_predicate 0 4 (fun m => decide (m ≤ 1)) = 4 ∨
        decide (bisect_with_predicate 0 4 (fun m => decide (m ≤ 1)) ≤ 1) = false) ∧
      (∀ c : Int, 0 ≤ c → c < 4 → (∀ m, decide (m ≤ 1) = true ↔ m ≤ c) →
        bisect_with_predicate 0 4 (fun m => decide (m ≤ 1)) = c + 1)) :=
  ⟨by omega, bisect_with_predicate_spec 0 4 (fun m => decide (m ≤ 1)) (by omega)⟩

end Tmppy
